import Mathlib

/-!
Shallow embedding of `router_starter.py` (saundersa4atwit/RoutingAlgorithm).

The program simulates a router: packets are parsed from stdin, sorted by
arrival time, and fed through an event loop that either admits the next
arrival into a `QueueManager` or dequeues a packet for sending, according
to one of four policies (`fcfs`, `priority`, `rr`, `wfq`).

Modelling conventions:
- Python floats carrying millisecond timestamps and the output rate are
  modelled as `ℚ` (every concrete value exercised here is exactly
  representable; no float rounding is at issue in the claims).
- Python `heapq` is modelled faithfully: `heappush`/`heappop` with the
  CPython `_siftdown`/`_siftup` algorithms over a list viewed as a binary
  heap array.
- Python `dict` (`defaultdict(deque)`) is modelled as an association list
  in insertion order, matching dict iteration/`del` semantics; the code
  only observes it through `sorted(keys)`, membership, indexing and
  `any(values)`, so this is faithful.
- A Python exception aborting the run is modelled as `none`.
-/

set_option maxHeartbeats 1000000

/-- Scheduling policy: the four values accepted by `--policy`
(`choices=["fcfs", "priority", "rr", "wfq"]`). -/
inductive Policy
  | fcfs
  | priority
  | rr
  | wfq
deriving DecidableEq

/-- A packet, from `class Packet`: arrival time in ms, flow id, priority,
size in bytes and an uninterpreted payload. -/
structure Packet where
  arrival_time : ℚ
  flow_id : ℤ
  priority : ℤ
  size : ℤ
  payload : String
deriving DecidableEq, Inhabited

/-- `Packet.__lt__`: compare by priority; if equal, compare by arrival time. -/
def pktLt (p q : Packet) : Bool :=
  if p.priority ≠ q.priority then decide (p.priority < q.priority)
  else decide (p.arrival_time < q.arrival_time)

/-- Python tuple comparison on the heap entries `(pkt.priority,
pkt.arrival_time, pkt)` pushed by `enqueue`.  When both numeric components
are equal Python falls through to `Packet.__lt__` (distinct objects are
never `==`), which is `pktLt`; this matches CPython behaviour exactly,
including for packets with identical fields (where `pktLt` is `false`). -/
def entryLt (a b : ℤ × ℚ × Packet) : Bool :=
  if a.1 ≠ b.1 then decide (a.1 < b.1)
  else if a.2.1 ≠ b.2.1 then decide (a.2.1 < b.2.1)
  else pktLt a.2.2 b.2.2

/-- Linearisation key of a heap entry: `entryLt` is exactly the strict
lexicographic order on these keys (see `entryLt_iff_key`). -/
def entryKey (e : ℤ × ℚ × Packet) : ℤ ×ₗ ℚ ×ₗ ℤ ×ₗ ℚ :=
  toLex (e.1, toLex (e.2.1, toLex (e.2.2.priority, e.2.2.arrival_time)))

/-- Indexing into a Python list, with a junk default out of range (the
modelled code only indexes in range). -/
def nth {α} [Inhabited α] (l : List α) (i : ℕ) : α := l.getD i default

/-- Fuelled body of CPython `heapq._siftdown`.  The position strictly
decreases at every recursive call, so fuel `pos` always suffices; the
structural recursion keeps the function kernel-reducible. -/
def siftdownGo {α} [Inhabited α] (lt : α → α → Bool) :
    ℕ → List α → ℕ → ℕ → α → List α
  | 0, heap, _, pos, item => heap.set pos item
  | fuel + 1, heap, startpos, pos, item =>
    if startpos < pos then
      if lt item (nth heap ((pos - 1) / 2)) then
        siftdownGo lt fuel (heap.set pos (nth heap ((pos - 1) / 2))) startpos ((pos - 1) / 2) item
      else heap.set pos item
    else heap.set pos item

/-- CPython `heapq._siftdown(heap, startpos, pos)` where `item` is the
value conceptually sitting at `pos`: bubble `item` up the parent chain. -/
def siftdownAux {α} [Inhabited α] (lt : α → α → Bool) (heap : List α)
    (startpos pos : ℕ) (item : α) : List α :=
  siftdownGo lt pos heap startpos pos item

/-- Fuelled body of the CPython `heapq._siftup` descend loop.  The hole
position strictly increases while the length is fixed, so fuel
`heap.length - pos` always suffices. -/
def siftupGo {α} [Inhabited α] (lt : α → α → Bool) :
    ℕ → List α → ℕ → List α × ℕ
  | 0, heap, pos => (heap, pos)
  | fuel + 1, heap, pos =>
    if 2 * pos + 1 < heap.length then
      if 2 * pos + 2 < heap.length ∧ lt (nth heap (2 * pos + 1)) (nth heap (2 * pos + 2)) = false then
        siftupGo lt fuel (heap.set pos (nth heap (2 * pos + 2))) (2 * pos + 2)
      else
        siftupGo lt fuel (heap.set pos (nth heap (2 * pos + 1))) (2 * pos + 1)
    else (heap, pos)

/-- CPython `heapq._siftup` main loop: move the smaller child up into the
hole at `pos` until the hole reaches a leaf; returns the final array and
final hole position. -/
def siftupLoop {α} [Inhabited α] (lt : α → α → Bool) (heap : List α) (pos : ℕ) :
    List α × ℕ :=
  siftupGo lt (heap.length - pos) heap pos

/-- CPython `heapq._siftup(heap, pos)`: descend the hole to a leaf, drop
the saved item there and bubble it back up. -/
def siftup {α} [Inhabited α] (lt : α → α → Bool) (heap : List α) (pos : ℕ) : List α :=
  siftdownAux lt (siftupLoop lt heap pos).1 pos (siftupLoop lt heap pos).2 (nth heap pos)

/-- CPython `heapq.heappush`. -/
def heappush {α} [Inhabited α] (lt : α → α → Bool) (heap : List α) (item : α) : List α :=
  siftdownAux lt (heap ++ [item]) 0 heap.length item

/-- CPython `heapq.heappop`; `none` models the `IndexError` on an empty
list (the source only pops after checking `if self.heap`). -/
def heappop {α} [Inhabited α] (lt : α → α → Bool) (heap : List α) :
    Option (α × List α) :=
  match heap.getLast? with
  | none => none
  | some lastelt =>
    if heap.dropLast.isEmpty then some (lastelt, [])
    else some (nth heap.dropLast 0, siftup lt (heap.dropLast.set 0 lastelt) 0)

/-- `QueueManager.__init__` state: per-policy storage.  `flow_queues`
models the `defaultdict(deque)` as an association list in insertion
order; `weights`, `wfq_finish_times` and `wfq_virtual_time` are declared
by the source but never touched after construction. -/
structure QueueManager where
  policy : Policy
  queue : List Packet
  heap : List (ℤ × ℚ × Packet)
  flow_queues : List (ℤ × List Packet)
  last_flow : Option ℤ
  weights : List (ℤ × ℚ)
  wfq_finish_times : List (ℤ × ℚ)
  wfq_virtual_time : ℚ
deriving DecidableEq

/-- A fresh `QueueManager(policy=pol)` (no `--weights` given). -/
def mkQueueManager (pol : Policy) : QueueManager :=
  { policy := pol, queue := [], heap := [], flow_queues := [], last_flow := none,
    weights := [], wfq_finish_times := [], wfq_virtual_time := 0 }

/-- `self.flow_queues[fid].append(pkt)` on a `defaultdict(deque)`: append
to the existing queue, or create a fresh singleton queue at the end of the
insertion order. -/
def flowAppend (fq : List (ℤ × List Packet)) (fid : ℤ) (p : Packet) :
    List (ℤ × List Packet) :=
  match fq with
  | [] => [(fid, [p])]
  | (f, q) :: rest =>
    if f = fid then (f, q ++ [p]) :: rest else (f, q) :: flowAppend rest fid p

/-- Dict lookup `self.flow_queues[fid]` for a key known to be present. -/
def flowGet (fq : List (ℤ × List Packet)) (fid : ℤ) : Option (List Packet) :=
  match fq with
  | [] => none
  | (f, q) :: rest => if f = fid then some q else flowGet rest fid

/-- `pkt = self.flow_queues[fid].popleft()` followed by
`if not self.flow_queues[fid]: del self.flow_queues[fid]`. -/
def rrPop (fq : List (ℤ × List Packet)) (fid : ℤ) :
    Option Packet × List (ℤ × List Packet) :=
  match fq with
  | [] => (none, [])
  | (f, q) :: rest =>
    if f = fid then
      match q with
      | [] => (none, (f, q) :: rest)
      | p :: q' => (some p, if q' = [] then rest else (f, q') :: rest)
    else
      let r := rrPop rest fid
      (r.1, (f, q) :: r.2)

/-- `self.flow_queues.keys()` in insertion order. -/
def flowKeys (fq : List (ℤ × List Packet)) : List ℤ := fq.map (·.1)

/-- Python truthiness of `any(self.flow_queues.values())`: some stored
deque is non-empty. -/
def flowAny (fq : List (ℤ × List Packet)) : Bool :=
  fq.any (fun pr => !pr.2.isEmpty)

/-- Comparison relation used for `sorted(...)` on flow ids. -/
def intLe (a b : ℤ) : Prop := a ≤ b

instance : DecidableRel intLe := fun a b => inferInstanceAs (Decidable (a ≤ b))

instance : IsTotal ℤ intLe := ⟨fun a b => le_total a b⟩

instance : IsTrans ℤ intLe := ⟨fun _ _ _ => le_trans⟩

/-- `sorted(self.flow_queues.keys())`. -/
def sortedKeys (fq : List (ℤ × List Packet)) : List ℤ :=
  List.insertionSort intLe (flowKeys fq)

/-- `flow_ids.index(x)` (only called under `x in flow_ids`). -/
def listIndex (x : ℤ) : List ℤ → ℕ
  | [] => 0
  | a :: t => if a = x then 0 else listIndex x t + 1

/-- Start index of the round-robin scan: `(flow_ids.index(self.last_flow)
+ 1) % len(flow_ids)` if the last served flow is present, else `0`. -/
def rrStart (ids : List ℤ) (last : Option ℤ) : ℕ :=
  match last with
  | some lf => if lf ∈ ids then (listIndex lf ids + 1) % ids.length else 0
  | none => 0

/-- The `for j in range(len(flow_ids))` scan: first cyclic position (from
`start`) whose flow has packets waiting; returns that flow id. -/
def rrFind (fq : List (ℤ × List Packet)) (ids : List ℤ) (start : ℕ) : Option ℤ :=
  ((List.range ids.length).find? fun j =>
      match flowGet fq (nth ids ((start + j) % ids.length)) with
      | some q => !q.isEmpty
      | none => false).map
    fun j => nth ids ((start + j) % ids.length)

/-- `QueueManager.enqueue`: FCFS appends, PRIORITY pushes
`(priority, arrival_time, pkt)` on the heap, RR appends to the packet's
flow queue; no branch handles `wfq`, so it stores nothing. -/
def enqueue (qm : QueueManager) (pkt : Packet) : QueueManager :=
  match qm.policy with
  | Policy.fcfs => { qm with queue := qm.queue ++ [pkt] }
  | Policy.priority =>
    { qm with heap := heappush entryLt qm.heap (pkt.priority, pkt.arrival_time, pkt) }
  | Policy.rr => { qm with flow_queues := flowAppend qm.flow_queues pkt.flow_id pkt }
  | Policy.wfq => qm

/-- `QueueManager.dequeue`: returns the next packet (or `none`) and the
updated manager.  The `(none, qm)` fall-through of the RR branch mirrors
the final `return None` statements of the source. -/
def dequeue (qm : QueueManager) : Option Packet × QueueManager :=
  match qm.policy with
  | Policy.fcfs =>
    match qm.queue with
    | [] => (none, qm)
    | p :: rest => (some p, { qm with queue := rest })
  | Policy.priority =>
    match heappop entryLt qm.heap with
    | some (e, h) => (some e.2.2, { qm with heap := h })
    | none => (none, qm)
  | Policy.rr =>
    if flowAny qm.flow_queues = false then (none, qm)
    else
      match rrFind qm.flow_queues (sortedKeys qm.flow_queues)
          (rrStart (sortedKeys qm.flow_queues) qm.last_flow) with
      | some fid =>
        match rrPop qm.flow_queues fid with
        | (some p, fq) => (some p, { qm with flow_queues := fq, last_flow := some fid })
        | (none, _) => (none, qm)
      | none => (none, qm)
  | Policy.wfq => (none, qm)

/-- The `queues_empty()` helper of `main`.  Note the source tests
`args.policy in ("priority")` (a substring test); for the four values the
`--policy` flag admits, this is equivalent to the match below. -/
def queues_empty (qm : QueueManager) : Bool :=
  match qm.policy with
  | Policy.fcfs => qm.queue.isEmpty
  | Policy.priority => qm.heap.isEmpty
  | Policy.rr => !flowAny qm.flow_queues
  | Policy.wfq => true

/-- All packets currently resident across the three per-policy stores. -/
def flowPackets (fq : List (ℤ × List Packet)) : List Packet :=
  (fq.map (·.2)).flatten

/-- Residents: FCFS deque, then the packets of the priority heap, then the
per-flow queues. -/
def resPackets (qm : QueueManager) : List Packet :=
  qm.queue ++ qm.heap.map (fun e => e.2.2) ++ flowPackets qm.flow_queues

/-- Number of resident packets. -/
def resCount (qm : QueueManager) : ℕ := (resPackets qm).length

/-- An event printed by the event loop (`ENQUEUE` or `SEND`), with the
simulation time `now` at which it was printed. -/
inductive Event
  | enqueueEv (t : ℚ) (p : Packet)
  | sendEv (t : ℚ) (p : Packet)
deriving DecidableEq

/-- Whether an event is a `SEND` line. -/
def isSendEv : Event → Bool
  | Event.sendEv _ _ => true
  | Event.enqueueEv _ _ => false

/-- Number of `SEND` lines in an event log. -/
def sendCount (evs : List Event) : ℕ := evs.countP isSendEv

/-- Number of `ENQUEUE` lines in an event log. -/
def enqCount (evs : List Event) : ℕ := evs.countP (fun e => !isSendEv e)

/-- The packet of the first `SEND` line, if any. -/
def firstSentPkt (evs : List Event) : Option Packet :=
  (evs.find? isSendEv).map fun e =>
    match e with
    | Event.sendEv _ p => p
    | Event.enqueueEv _ p => p

/-- Flow ids of the `SEND` lines, in order. -/
def sentFlows (evs : List Event) : List ℤ :=
  evs.filterMap fun e =>
    match e with
    | Event.sendEv _ p => some p.flow_id
    | Event.enqueueEv _ _ => none

/-- State of the `while` loop in `main`: arrival cursor `i`, simulation
clock `now`, `next_send_time`, the queue manager, and the event log so
far. -/
structure LoopState where
  i : ℕ
  now : ℚ
  next_send_time : ℚ
  qm : QueueManager
  events : List Event
deriving DecidableEq

/-- The `else` (send) branch of the loop body: set `now = next_send_time`,
dequeue; on a packet, log `SEND` and advance `next_send_time`; on `None`,
fast-forward `next_send_time` to the next arrival, or `break` (the
`Sum.inr` outcome) if none remains. -/
def sendStep (pkts : List Packet) (send_interval : ℚ) (s : LoopState) :
    LoopState ⊕ LoopState :=
  match dequeue s.qm with
  | (some p, qm) =>
    Sum.inl { i := s.i, now := s.next_send_time,
              next_send_time := s.next_send_time + send_interval, qm := qm,
              events := s.events ++ [Event.sendEv s.next_send_time p] }
  | (none, qm) =>
    match pkts[s.i]? with
    | some pkt =>
      Sum.inl { i := s.i, now := s.next_send_time, next_send_time := pkt.arrival_time,
                qm := qm, events := s.events }
    | none => Sum.inr { i := s.i, now := s.next_send_time,
                        next_send_time := s.next_send_time, qm := qm, events := s.events }

/-- One iteration of `while i < n or not queues_empty():`.  `Sum.inl` is a
state that re-enters the loop, `Sum.inr` a state in which the loop has
exited (condition false, or `break`).  `next_arrival <= next_send_time`
admits the arrival (`float("inf")` compares greater than everything, which
the `pkts[s.i]? = none` branch models). -/
def loopStep (pkts : List Packet) (send_interval : ℚ) (s : LoopState) :
    LoopState ⊕ LoopState :=
  if s.i < pkts.length ∨ queues_empty s.qm = false then
    match pkts[s.i]? with
    | some pkt =>
      if pkt.arrival_time ≤ s.next_send_time then
        Sum.inl { i := s.i + 1, now := pkt.arrival_time,
                  next_send_time := s.next_send_time, qm := enqueue s.qm pkt,
                  events := s.events ++ [Event.enqueueEv pkt.arrival_time pkt] }
      else sendStep pkts send_interval s
    | none => sendStep pkts send_interval s
  else Sum.inr s

/-- Run the loop for at most `fuel` iterations; `none` means the fuel was
exhausted before the loop exited. -/
def runLoop (pkts : List Packet) (send_interval : ℚ) : ℕ → LoopState → Option LoopState
  | 0, _ => none
  | fuel + 1, s =>
    match loopStep pkts send_interval s with
    | Sum.inl s' => runLoop pkts send_interval fuel s'
    | Sum.inr t => some t

/-- Initial loop state: `i = 0`, `now = 0.0`, `next_send_time = 0.0`. -/
def initLoopState (pol : Policy) : LoopState :=
  { i := 0, now := 0, next_send_time := 0, qm := mkQueueManager pol, events := [] }

/-- Sort key `packets.sort(key=lambda p: p.arrival_time)` (Timsort is
stable; so is insertion sort, and stable sorts agree). -/
def arrLe (p q : Packet) : Prop := p.arrival_time ≤ q.arrival_time

instance : DecidableRel arrLe := fun p q =>
  inferInstanceAs (Decidable (p.arrival_time ≤ q.arrival_time))

/-- `packets.sort(key=lambda p: p.arrival_time)`. -/
def sortPackets (l : List Packet) : List Packet := List.insertionSort arrLe l

/-- The simulation part of `main`, after parsing: sort the packets,
compute `send_interval = 1000.0 / output_rate`, run the event loop.  The
fuel `4 * n + 2` is proved sufficient (`event_loop_terminates`). -/
def simMain (pol : Policy) (input : List Packet) (output_rate : ℚ) : Option LoopState :=
  let pkts := sortPackets input
  runLoop pkts (1000 / output_rate) (4 * pkts.length + 2) (initLoopState pol)

/-- First packet sent in a run (`none` if the fuel ran out or nothing was
ever sent). -/
def firstSendOfRun (o : Option LoopState) : Option Packet :=
  match o with
  | some t => firstSentPkt t.events
  | none => none

/-- Flow ids sent in a run, in order. -/
def sentFlowsOfRun (o : Option LoopState) : List ℤ :=
  match o with
  | some t => sentFlows t.events
  | none => []

/-- One when the loop is idling strictly before the next arrival (the
state in which a failed dequeue fast-forwards `next_send_time`). -/
def idleFlag (pkts : List Packet) (i : ℕ) (t : ℚ) : ℕ :=
  match pkts[i]? with
  | some pkt => if t < pkt.arrival_time then 1 else 0
  | none => 0

/-- Termination measure of the event loop: each re-entering iteration
strictly decreases it. -/
def loopMeasure (pkts : List Packet) (s : LoopState) : ℕ :=
  4 * (pkts.length - s.i) + 2 * resCount s.qm + idleFlag pkts s.i s.next_send_time

/-- An abstract call against the queue manager: `enqueue(p)` or
`dequeue()`. -/
inductive RouterOp
  | enq (p : Packet)
  | deq
deriving DecidableEq

/-- Apply a sequence of calls; returns the final manager and the list of
packets the dequeues returned (empty results skipped). -/
def runOps (qm : QueueManager) : List RouterOp → QueueManager × List Packet
  | [] => (qm, [])
  | RouterOp.enq p :: rest => runOps (enqueue qm p) rest
  | RouterOp.deq :: rest =>
    match dequeue qm with
    | (some p, qm') =>
      let r := runOps qm' rest
      (r.1, p :: r.2)
    | (none, qm') => runOps qm' rest

/-- The packets passed to `enqueue`, in call order. -/
def opsEnqList (ops : List RouterOp) : List Packet :=
  ops.filterMap fun o =>
    match o with
    | RouterOp.enq p => some p
    | RouterOp.deq => none

/-- States of the queue manager reachable under a fixed policy by any
sequence of `enqueue`/`dequeue` calls from a fresh manager. -/
inductive Reach (pol : Policy) : QueueManager → Prop
  | init : Reach pol (mkQueueManager pol)
  | enq (p : Packet) {qm} : Reach pol qm → Reach pol (enqueue qm p)
  | deq {qm} : Reach pol qm → Reach pol (dequeue qm).2

/-- Both stores a policy does not use are empty, and for `rr` the flow
queue invariant holds. -/
def RRInv (fq : List (ℤ × List Packet)) : Prop :=
  (∀ pr ∈ fq, pr.2 ≠ ([] : List Packet)) ∧ (flowKeys fq).Nodup

/-- Well-formedness of a heap entry: its numeric components are the
packet's own priority and arrival time (as `enqueue` pushes them). -/
def WFEntry (e : ℤ × ℚ × Packet) : Prop :=
  e.1 = e.2.2.priority ∧ e.2.1 = e.2.2.arrival_time

/-- Binary-heap ordering property of a list viewed as a heap array:
no child compares strictly below its parent. -/
def IsHeap {α} [Inhabited α] (lt : α → α → Bool) (l : List α) : Prop :=
  ∀ i j, (j = 2 * i + 1 ∨ j = 2 * i + 2) → j < l.length →
    lt (nth l j) (nth l i) = false

/-- Modelled from the claim's words (C6): among currently non-empty flows,
the id immediately following the last-served id in ascending order with
wraparound (that is, the least non-empty id greater than it, else the
least non-empty id); if the last-served id is not among the current flow
ids — including before any packet was served — the smallest non-empty
flow id. -/
def specRRFlow (qm : QueueManager) : Option ℤ :=
  let ne := (qm.flow_queues.filter fun pr => !pr.2.isEmpty).map (·.1)
  match qm.last_flow with
  | some lf =>
    if lf ∈ flowKeys qm.flow_queues then
      match (ne.filter fun x => lf < x).min? with
      | some v => some v
      | none => ne.min?
    else ne.min?
  | none => ne.min?

/-- Scenario C packets: A has priority 2 and arrives at `t=0`. -/
def pktA : Packet := { arrival_time := 0, flow_id := 1, priority := 2, size := 100, payload := "A" }

/-- Scenario C packets: B has priority 0 and arrives at `t=1` ms. -/
def pktB : Packet := { arrival_time := 1, flow_id := 2, priority := 0, size := 100, payload := "B" }

/-- Scenario B input: flows 1 and 2 submit two packets each at `t=0`. -/
def scenarioB : List Packet :=
  [ { arrival_time := 0, flow_id := 1, priority := 1, size := 100, payload := "b1" },
    { arrival_time := 0, flow_id := 1, priority := 1, size := 100, payload := "b2" },
    { arrival_time := 0, flow_id := 2, priority := 1, size := 100, payload := "b3" },
    { arrival_time := 0, flow_id := 2, priority := 1, size := 100, payload := "b4" } ]

/-- Drop leading whitespace (separator runs of `str.split`). -/
def dropWS (cs : List Char) : List Char := cs.dropWhile Char.isWhitespace

/-- `line.strip().split(maxsplit=k)` on a character list: at most `k`
splits on whitespace runs; the remainder (internal whitespace kept, the
separating run consumed) becomes the last chunk. -/
def splitMaxAux : ℕ → List Char → List (List Char)
  | k, cs =>
    let cs' := dropWS cs
    if cs'.isEmpty then []
    else
      match k with
      | 0 => [cs']
      | k' + 1 =>
        let w := cs'.takeWhile (fun c => !c.isWhitespace)
        let rest := cs'.dropWhile (fun c => !c.isWhitespace)
        w :: splitMaxAux k' rest

/-- `s.split(maxsplit=4)` (whitespace separator). -/
def pySplitMax4 (s : String) : List String :=
  (splitMaxAux 4 s.toList).map List.asString

/-- Numeric value of a non-empty all-digit string; `none` otherwise. -/
def digitsToNat? (cs : List Char) : Option ℕ :=
  if cs.isEmpty || !cs.all Char.isDigit then none
  else some (cs.foldl (fun a c => 10 * a + (c.toNat - 48)) 0)

/-- Total digit fold (callers check digit-ness separately). -/
def natOfDigits (cs : List Char) : ℕ :=
  cs.foldl (fun a c => 10 * a + (c.toNat - 48)) 0

/-- Python `int(s)` on the subset exercised here: optional sign and a
non-empty digit string, surrounding whitespace allowed; `none` models the
`ValueError` on anything else.  (Underscored literals are not modelled.) -/
def pyInt? (s : String) : Option ℤ :=
  match s.trim.toList with
  | '+' :: cs => (digitsToNat? cs).map fun n => (n : ℤ)
  | '-' :: cs => (digitsToNat? cs).map fun n => -(n : ℤ)
  | cs => (digitsToNat? cs).map fun n => (n : ℤ)

/-- Value of `intpart.fracpart`. -/
def floatCore? (cs : List Char) : Option ℚ :=
  let ip := cs.takeWhile Char.isDigit
  let rest := cs.dropWhile Char.isDigit
  match rest with
  | [] => if ip.isEmpty then none else some ((natOfDigits ip : ℚ))
  | '.' :: frac =>
    if ip.isEmpty && frac.isEmpty then none
    else if frac.all Char.isDigit then
      some ((natOfDigits ip : ℚ) + (natOfDigits frac : ℚ) / (10 ^ frac.length))
    else none
  | _ => none

/-- Python `float(s)` on the decimal subset exercised here: optional sign,
digits with an optional fractional point; `none` models the `ValueError`.
(Exponents, `inf`/`nan` and underscored literals are not modelled.) -/
def pyFloat? (s : String) : Option ℚ :=
  match s.trim.toList with
  | '+' :: cs => floatCore? cs
  | '-' :: cs => (floatCore? cs).map fun q => -q
  | cs => floatCore? cs

/-- `if not line.strip() or line.startswith("#"): continue` — note the
`startswith` test is on the raw, unstripped line. -/
def lineSkipped (l : String) : Bool := l.trim.isEmpty || l.startsWith "#"

/-- Parse one non-skipped line:
`arrival_time, flow_id, priority, size, payload = line.strip().split(maxsplit=4)`
followed by the `Packet` constructor's `float`/`int` conversions; `none`
models the uncaught `ValueError` (wrong field count or non-numeric
field). -/
def parseFields (l : String) : Option Packet :=
  match pySplitMax4 l.trim with
  | [a, f, p, sz, pl] =>
    match pyFloat? a, pyInt? f, pyInt? p, pyInt? sz with
    | some av, some fv, some pv, some sv =>
      some { arrival_time := av, flow_id := fv, priority := pv, size := sv, payload := pl }
    | _, _, _, _ => none
  | _ => none

/-- The stdin parsing loop of `main`; `none` models the run aborting on
the first bad line. -/
def parseInput : List String → Option (List Packet)
  | [] => some []
  | l :: rest =>
    if lineSkipped l then parseInput rest
    else
      match parseFields l with
      | some p => (parseInput rest).map (p :: ·)
      | none => none

/-- Whole program on given stdin lines: parse, then simulate.  The outer
`none` is an uncaught parse error (the run aborts with no simulation
output at all). -/
def mainRun (lines : List String) (pol : Policy) (output_rate : ℚ) :
    Option (Option LoopState) :=
  (parseInput lines).map fun pkts => simMain pol pkts output_rate

/-- A line that is not skipped and is malformed in the sense of the spec:
fewer than five whitespace-separated fields (the unpacking fails), or a
non-numeric `arrival_time`, `flow_id`, `priority` or `size` field. -/
def malformedLine (l : String) : Prop :=
  lineSkipped l = false ∧
    ((pySplitMax4 l.trim).length ≠ 5 ∨
      ∃ a f p sz pl, pySplitMax4 l.trim = [a, f, p, sz, pl] ∧
        (pyFloat? a = none ∨ pyInt? f = none ∨ pyInt? p = none ∨ pyInt? sz = none))

/-- Proof-internal invariant for the CPython sift routines: the array is a
heap on every edge not touching the hole `pos`, and across the hole
(grandparent to grandchildren of the hole's parent). -/
def HoleInv {α} [Inhabited α] (lt : α → α → Bool) (h : List α) (pos : ℕ) : Prop :=
  (∀ i j, (j = 2 * i + 1 ∨ j = 2 * i + 2) → j < h.length → i ≠ pos → j ≠ pos →
      lt (nth h j) (nth h i) = false) ∧
  (∀ c, (c = 2 * pos + 1 ∨ c = 2 * pos + 2) → c < h.length → 0 < pos →
      lt (nth h c) (nth h ((pos - 1) / 2)) = false)

/-- The stores the given policy does not use are empty; under `rr` the
flow-queue map additionally satisfies `RRInv`. -/
def StoresOK : Policy → QueueManager → Prop
  | Policy.fcfs, qm => qm.heap = [] ∧ qm.flow_queues = []
  | Policy.priority, qm => qm.queue = [] ∧ qm.flow_queues = []
  | Policy.rr, qm => qm.queue = [] ∧ qm.heap = [] ∧ RRInv qm.flow_queues
  | Policy.wfq, qm => qm.queue = [] ∧ qm.heap = [] ∧ qm.flow_queues = []

/-- Invariant of the event loop maintained by every iteration. -/
def LoopInv (pol : Policy) (pkts : List Packet) (s : LoopState) : Prop :=
  s.qm.policy = pol ∧ StoresOK pol s.qm ∧ s.i ≤ pkts.length ∧
  enqCount s.events = s.i ∧
  (pol = Policy.wfq → sendCount s.events = 0) ∧
  (pol ≠ Policy.wfq → sendCount s.events + resCount s.qm = s.i)

/-! ### Basic lemmas about `nth` and `List.set` -/

section NthLemmas

variable {α : Type} [Inhabited α]

lemma nth_nil (i : ℕ) : nth ([] : List α) i = default := rfl

lemma nth_cons_zero (a : α) (l : List α) : nth (a :: l) 0 = a := rfl

lemma nth_cons_succ (a : α) (l : List α) (i : ℕ) : nth (a :: l) (i + 1) = nth l i := rfl

lemma nth_set_self (l : List α) (i : ℕ) (x : α) (h : i < l.length) :
    nth (l.set i x) i = x := by
  induction l generalizing i with
  | nil => simp at h
  | cons a t ih =>
    cases i with
    | zero => rfl
    | succ i => exact ih i (by simpa using h)

lemma nth_set_ne (l : List α) {i j : ℕ} (x : α) (h : i ≠ j) :
    nth (l.set i x) j = nth l j := by
  induction l generalizing i j with
  | nil => rfl
  | cons a t ih =>
    cases i with
    | zero =>
      cases j with
      | zero => exact absurd rfl h
      | succ j => rfl
    | succ i =>
      cases j with
      | zero => rfl
      | succ j => exact ih (fun e => h (by omega))

lemma nth_append_left (l l' : List α) {i : ℕ} (h : i < l.length) :
    nth (l ++ l') i = nth l i := by
  induction l generalizing i with
  | nil => simp at h
  | cons a t ih =>
    cases i with
    | zero => rfl
    | succ i => exact ih (by simpa using h)

lemma nth_append_len (l : List α) (x : α) : nth (l ++ [x]) l.length = x := by
  induction l with
  | nil => rfl
  | cons a t ih => exact ih

lemma nth_mem (l : List α) {i : ℕ} (h : i < l.length) : nth l i ∈ l := by
  induction l generalizing i with
  | nil => simp at h
  | cons a t ih =>
    cases i with
    | zero => exact List.mem_cons_self a t
    | succ i => exact List.mem_cons_of_mem _ (ih (by simpa using h))

lemma set_nth_eq (l : List α) (i : ℕ) : l.set i (nth l i) = l := by
  induction l generalizing i with
  | nil => rfl
  | cons a t ih =>
    cases i with
    | zero => rfl
    | succ i => simpa using ih i

lemma ms_set (l : List α) {i : ℕ} (x : α) (h : i < l.length) :
    (↑(l.set i x) : Multiset α) + {nth l i} = (↑l : Multiset α) + {x} := by
  induction l generalizing i with
  | nil => simp at h
  | cons a t ih =>
    cases i with
    | zero =>
      show (↑(x :: t) : Multiset α) + {a} = (↑(a :: t) : Multiset α) + {x}
      calc (↑(x :: t) : Multiset α) + {a}
          = {a} + (↑(x :: t) : Multiset α) := add_comm _ _
        _ = a ::ₘ x ::ₘ (↑t : Multiset α) := by
            rw [Multiset.singleton_add, ← Multiset.cons_coe]
        _ = x ::ₘ a ::ₘ (↑t : Multiset α) := Multiset.cons_swap _ _ _
        _ = {x} + (↑(a :: t) : Multiset α) := by
            rw [Multiset.singleton_add, ← Multiset.cons_coe]
        _ = (↑(a :: t) : Multiset α) + {x} := add_comm _ _
    | succ i =>
      show (↑(a :: t.set i x) : Multiset α) + {nth t i} = (↑(a :: t) : Multiset α) + {x}
      rw [← Multiset.cons_coe, ← Multiset.cons_coe, Multiset.cons_add, Multiset.cons_add,
        ih (by simpa using h)]

end NthLemmas

/-! ### Fuel irrelevance and unfolding equations for the sift routines -/

section SiftUnfold

variable {α : Type} [Inhabited α] {lt : α → α → Bool}

lemma siftdownGo_fuel : ∀ (f1 f2 : ℕ) (heap : List α) (startpos pos : ℕ) (item : α),
    pos ≤ f1 → pos ≤ f2 →
    siftdownGo lt f1 heap startpos pos item = siftdownGo lt f2 heap startpos pos item := by
  intro f1
  induction f1 with
  | zero =>
    intro f2 heap startpos pos item h1 h2
    have hp : pos = 0 := by omega
    subst hp
    cases f2 with
    | zero => rfl
    | succ g =>
      rw [siftdownGo, siftdownGo]
      simp
  | succ f ih =>
    intro f2 heap startpos pos item h1 h2
    cases f2 with
    | zero =>
      have hp : pos = 0 := by omega
      subst hp
      rw [siftdownGo, siftdownGo]
      simp
    | succ g =>
      rw [siftdownGo, siftdownGo]
      split
      · split
        · exact ih g _ _ _ _ (by omega) (by omega)
        · rfl
      · rfl

lemma siftdownAux_unfold (heap : List α) (startpos pos : ℕ) (item : α) :
    siftdownAux lt heap startpos pos item
      = if startpos < pos then
          if lt item (nth heap ((pos - 1) / 2)) then
            siftdownAux lt (heap.set pos (nth heap ((pos - 1) / 2))) startpos
              ((pos - 1) / 2) item
          else heap.set pos item
        else heap.set pos item := by
  show siftdownGo lt pos heap startpos pos item = _
  cases pos with
  | zero =>
    rw [siftdownGo]
    simp
  | succ n =>
    rw [siftdownGo]
    split
    · split
      · exact siftdownGo_fuel n _ _ _ _ _ (by omega) (by omega)
      · rfl
    · rfl

lemma siftupGo_fuel : ∀ (f1 f2 : ℕ) (heap : List α) (pos : ℕ),
    heap.length - pos ≤ f1 → heap.length - pos ≤ f2 →
    siftupGo lt f1 heap pos = siftupGo lt f2 heap pos := by
  intro f1
  induction f1 with
  | zero =>
    intro f2 heap pos h1 h2
    cases f2 with
    | zero => rfl
    | succ g =>
      rw [siftupGo, siftupGo]
      rw [if_neg (by omega)]
  | succ f ih =>
    intro f2 heap pos h1 h2
    cases f2 with
    | zero =>
      rw [siftupGo, siftupGo]
      rw [if_neg (by omega)]
    | succ g =>
      rw [siftupGo, siftupGo]
      split
      · rename_i hc
        split
        · exact ih g _ _ (by simp only [List.length_set]; omega)
            (by simp only [List.length_set]; omega)
        · exact ih g _ _ (by simp only [List.length_set]; omega)
            (by simp only [List.length_set]; omega)
      · rfl

lemma siftupLoop_unfold (heap : List α) (pos : ℕ) :
    siftupLoop lt heap pos
      = if 2 * pos + 1 < heap.length then
          if 2 * pos + 2 < heap.length ∧
              lt (nth heap (2 * pos + 1)) (nth heap (2 * pos + 2)) = false then
            siftupLoop lt (heap.set pos (nth heap (2 * pos + 2))) (2 * pos + 2)
          else siftupLoop lt (heap.set pos (nth heap (2 * pos + 1))) (2 * pos + 1)
        else (heap, pos) := by
  show siftupGo lt (heap.length - pos) heap pos = _
  cases hf : heap.length - pos with
  | zero =>
    rw [siftupGo]
    rw [if_neg (by omega)]
  | succ n =>
    rw [siftupGo]
    split
    · rename_i hc
      split
      · exact siftupGo_fuel n _ _ _ (by simp only [List.length_set]; omega)
          (by simp only [List.length_set]; omega)
      · exact siftupGo_fuel n _ _ _ (by simp only [List.length_set]; omega)
          (by simp only [List.length_set]; omega)
    · rfl

end SiftUnfold

/-! ### Length and multiset preservation of the heapq routines -/

section HeapMs

variable {α : Type} [Inhabited α] {lt : α → α → Bool}

lemma siftdownAux_length (startpos pos : ℕ) (h : List α) (item : α) :
    (siftdownAux lt h startpos pos item).length = h.length := by
  induction pos using Nat.strong_induction_on generalizing h with
  | _ pos ih =>
    rw [siftdownAux_unfold]
    split
    · split
      · rw [ih _ (by omega), List.length_set]
      · exact List.length_set _ _ _
    · exact List.length_set _ _ _

lemma siftupLoop_length (pos : ℕ) (h : List α) :
    (siftupLoop lt h pos).1.length = h.length := by
  suffices H : ∀ n pos (h : List α), h.length - pos = n → (siftupLoop lt h pos).1.length = h.length by
    exact H _ pos h rfl
  intro n
  induction n using Nat.strong_induction_on with
  | _ n ih =>
    intro pos h hn
    rw [siftupLoop_unfold]
    split
    · split
      · rw [ih (h.length - (2 * pos + 2)) (by omega) _ _ (by simp), List.length_set]
      · rw [ih (h.length - (2 * pos + 1)) (by omega) _ _ (by simp), List.length_set]
    · rfl

lemma ms_set_set {h : List α} {pos q : ℕ} (x : α) (hpos : pos < h.length)
    (hq : q < h.length) (hne : q ≠ pos) :
    (↑((h.set pos (nth h q)).set q x) : Multiset α) = ↑(h.set pos x) := by
  have hq' : q < (h.set pos (nth h q)).length := by rw [List.length_set]; exact hq
  have e1 := ms_set (h.set pos (nth h q)) x hq'
  rw [nth_set_ne h (nth h q) (fun e => hne e.symm)] at e1
  have e2 := ms_set h (nth h q) hpos
  have e3 := ms_set h x hpos
  have key : (↑((h.set pos (nth h q)).set q x) : Multiset α) + ({nth h q} + {nth h pos})
      = ↑(h.set pos x) + ({nth h q} + {nth h pos}) := by
    calc (↑((h.set pos (nth h q)).set q x) : Multiset α) + ({nth h q} + {nth h pos})
        = ((↑((h.set pos (nth h q)).set q x) : Multiset α) + {nth h q}) + {nth h pos} :=
          (add_assoc _ _ _).symm
      _ = ((↑(h.set pos (nth h q)) : Multiset α) + {x}) + {nth h pos} := by rw [e1]
      _ = ((↑(h.set pos (nth h q)) : Multiset α) + {nth h pos}) + {x} := add_right_comm _ _ _
      _ = ((↑h : Multiset α) + {nth h q}) + {x} := by rw [e2]
      _ = ((↑h : Multiset α) + {x}) + {nth h q} := add_right_comm _ _ _
      _ = ((↑(h.set pos x) : Multiset α) + {nth h pos}) + {nth h q} := by rw [e3]
      _ = (↑(h.set pos x) : Multiset α) + ({nth h q} + {nth h pos}) := by
          rw [add_assoc, add_comm {nth h pos} _]
  exact add_right_cancel key

lemma siftdownAux_ms (pos : ℕ) (h : List α) (item : α) (hpos : pos < h.length) :
    (↑(siftdownAux lt h 0 pos item) : Multiset α) = ↑(h.set pos item) := by
  induction pos using Nat.strong_induction_on generalizing h with
  | _ pos ih =>
    rw [siftdownAux_unfold]
    split
    · split
      · rw [ih ((pos - 1) / 2) (by omega) _ (by rw [List.length_set]; omega)]
        exact ms_set_set item hpos (by omega) (by omega)
      · rfl
    · rfl

lemma siftupLoop_ms (pos : ℕ) (h : List α) (hpos : pos < h.length) (x : α) :
    (↑((siftupLoop lt h pos).1.set (siftupLoop lt h pos).2 x) : Multiset α)
      = ↑(h.set pos x) := by
  suffices H : ∀ n pos (h : List α), h.length - pos = n → pos < h.length →
      (↑((siftupLoop lt h pos).1.set (siftupLoop lt h pos).2 x) : Multiset α)
        = ↑(h.set pos x) by
    exact H _ pos h rfl hpos
  intro n
  induction n using Nat.strong_induction_on with
  | _ n ih =>
    intro pos h hn hpos
    rw [siftupLoop_unfold]
    split
    · split
      · rw [ih (h.length - (2 * pos + 2)) (by omega) _ _ (by simp)
          (by rw [List.length_set]; omega)]
        exact ms_set_set x hpos (by omega) (by omega)
      · rw [ih (h.length - (2 * pos + 1)) (by omega) _ _ (by simp)
          (by rw [List.length_set]; omega)]
        exact ms_set_set x hpos (by omega) (by omega)
    · rfl

lemma siftup_length (h : List α) (pos : ℕ) : (siftup lt h pos).length = h.length := by
  rw [siftup, siftdownAux_length, siftupLoop_length]

lemma siftupLoop_pos_lt (pos : ℕ) (h : List α) (hpos : pos < h.length) :
    (siftupLoop lt h pos).2 < h.length ∧ h.length ≤ 2 * (siftupLoop lt h pos).2 + 1 := by
  suffices H : ∀ n pos (h : List α), h.length - pos = n → pos < h.length →
      (siftupLoop lt h pos).2 < h.length ∧ h.length ≤ 2 * (siftupLoop lt h pos).2 + 1 by
    exact H _ pos h rfl hpos
  intro n
  induction n using Nat.strong_induction_on with
  | _ n ih =>
    intro pos h hn hpos
    rw [siftupLoop_unfold]
    split
    · rename_i hc
      split
      · have := ih (h.length - (2 * pos + 2)) (by omega) (2 * pos + 2)
          (h.set pos (nth h (2 * pos + 2))) (by simp) (by rw [List.length_set]; omega)
        rw [List.length_set] at this
        exact this
      · have := ih (h.length - (2 * pos + 1)) (by omega) (2 * pos + 1)
          (h.set pos (nth h (2 * pos + 1))) (by simp) (by rw [List.length_set]; omega)
        rw [List.length_set] at this
        exact this
    · exact ⟨hpos, by omega⟩

lemma siftup_ms (h : List α) (h0 : 0 < h.length) :
    (↑(siftup lt h 0) : Multiset α) = ↑h := by
  have hl := @siftupLoop_length _ _ lt 0 h
  have hpos2 : (siftupLoop lt h 0).2 < (siftupLoop lt h 0).1.length := by
    rw [hl]; exact (siftupLoop_pos_lt 0 h h0).1
  rw [siftup, siftdownAux_ms _ _ _ hpos2, siftupLoop_ms 0 h h0, set_nth_eq]

end HeapMs

/-! ### Heap-ordering lemmas for the heapq routines -/

section HeapOrder

variable {α : Type} [Inhabited α] {lt : α → α → Bool}

lemma lt_self_false (hA : ∀ a b, lt a b = true → lt b a = false) (a : α) :
    lt a a = false := by
  by_cases h : lt a a = true
  · exact hA a a h
  · simpa using h

lemma isHeap_root_min (hA : ∀ a b, lt a b = true → lt b a = false)
    (hT : ∀ a b c, lt b a = false → lt c b = false → lt c a = false)
    {h : List α} (hh : IsHeap lt h) :
    ∀ j, j < h.length → lt (nth h j) (nth h 0) = false := by
  intro j
  induction j using Nat.strong_induction_on with
  | _ j ih =>
    intro hj
    rcases Nat.eq_zero_or_pos j with rfl | hj0
    · exact lt_self_false hA _
    · have hedge : j = 2 * ((j - 1) / 2) + 1 ∨ j = 2 * ((j - 1) / 2) + 2 := by omega
      have h1 : lt (nth h j) (nth h ((j - 1) / 2)) = false := hh _ _ hedge hj
      have h2 : lt (nth h ((j - 1) / 2)) (nth h 0) = false :=
        ih _ (by omega) (by omega)
      exact hT _ _ _ h2 h1

lemma siftdownAux_isHeap (hA : ∀ a b, lt a b = true → lt b a = false)
    (hT : ∀ a b c, lt b a = false → lt c b = false → lt c a = false)
    (pos : ℕ) (h : List α) (item : α) (hpos : pos < h.length)
    (H1 : ∀ i j, (j = 2 * i + 1 ∨ j = 2 * i + 2) → j < h.length → i ≠ pos → j ≠ pos →
        lt (nth h j) (nth h i) = false)
    (H2 : ∀ c, (c = 2 * pos + 1 ∨ c = 2 * pos + 2) → c < h.length → 0 < pos →
        lt (nth h c) (nth h ((pos - 1) / 2)) = false)
    (H3 : ∀ c, (c = 2 * pos + 1 ∨ c = 2 * pos + 2) → c < h.length →
        lt (nth h c) item = false) :
    IsHeap lt (siftdownAux lt h 0 pos item) := by
  revert h item hpos H1 H2 H3
  induction pos using Nat.strong_induction_on with
  | _ pos ih =>
    intro h item hpos H1 H2 H3
    rw [siftdownAux_unfold]
    split
    · rename_i hp0
      split
      · -- bubble up: swap the hole with its parent and recurse
        rename_i hlt
        refine ih ((pos - 1) / 2) (by omega) _ item (by rw [List.length_set]; omega) ?_ ?_ ?_
        · -- edges avoiding the new hole
          intro i j hedge hjlen hip hjp
          rw [List.length_set] at hjlen
          by_cases hje : j = pos
          · exfalso; subst hje; omega
          · by_cases hie : i = pos
            · rw [hie, nth_set_self h _ _ hpos, nth_set_ne h _ (fun e => hje e.symm)]
              exact H2 j (by omega) hjlen (by omega)
            · rw [nth_set_ne h _ (fun e => hje e.symm), nth_set_ne h _ (fun e => hie e.symm)]
              exact H1 i j hedge hjlen hie hje
        · -- bridge across the new hole
          intro c hc hclen hpp
          rw [List.length_set] at hclen
          have hpp2 : (((pos - 1) / 2) - 1) / 2 ≠ pos := by omega
          have hedge : (pos - 1) / 2 = 2 * ((((pos - 1) / 2) - 1) / 2) + 1 ∨
              (pos - 1) / 2 = 2 * ((((pos - 1) / 2) - 1) / 2) + 2 := by omega
          rw [nth_set_ne h _ (fun e => hpp2 e.symm)]
          by_cases hce : c = pos
          · subst hce
            rw [nth_set_self h _ _ hpos]
            exact H1 _ _ hedge (by omega) hpp2 (by omega)
          · rw [nth_set_ne h _ (fun e => hce e.symm)]
            have hbp : lt (nth h ((pos - 1) / 2)) (nth h ((((pos - 1) / 2) - 1) / 2)) = false :=
              H1 _ _ hedge (by omega) hpp2 (by omega)
            have hcp : lt (nth h c) (nth h ((pos - 1) / 2)) = false :=
              H1 _ _ hc hclen (by omega) hce
            exact hT _ _ _ hbp hcp
        · -- the item fits below the children of the new hole
          intro c hc hclen
          rw [List.length_set] at hclen
          by_cases hce : c = pos
          · subst hce
            rw [nth_set_self h _ _ hpos]
            exact hA _ _ hlt
          · rw [nth_set_ne h _ (fun e => hce e.symm)]
            have h1 : lt (nth h ((pos - 1) / 2)) item = false := hA _ _ hlt
            have h2 : lt (nth h c) (nth h ((pos - 1) / 2)) = false :=
              H1 _ _ hc hclen (by omega) hce
            exact hT _ _ _ h1 h2
      · -- the item stays at the hole
        rename_i hnlt
        intro i j hedge hjlen
        rw [List.length_set] at hjlen
        by_cases hje : j = pos
        · have hi : i = (pos - 1) / 2 := by omega
          have hne : pos ≠ (pos - 1) / 2 := by omega
          rw [hje, hi, nth_set_self h _ _ hpos, nth_set_ne h _ hne]
          simpa using hnlt
        · by_cases hie : i = pos
          · subst hie
            rw [nth_set_self h _ _ hpos, nth_set_ne h _ (fun e => hje e.symm)]
            exact H3 j hedge hjlen
          · rw [nth_set_ne h _ (fun e => hje e.symm), nth_set_ne h _ (fun e => hie e.symm)]
            exact H1 i j hedge hjlen hie hje
    · -- pos = 0: drop the item at the root
      rename_i hp0
      have hpz : pos = 0 := by omega
      subst hpz
      intro i j hedge hjlen
      rw [List.length_set] at hjlen
      have hj0 : j ≠ 0 := by omega
      by_cases hie : i = 0
      · subst hie
        rw [nth_set_self h _ _ hpos, nth_set_ne h _ (fun e => hj0 e.symm)]
        exact H3 j hedge hjlen
      · rw [nth_set_ne h _ (fun e => hj0 e.symm), nth_set_ne h _ (fun e => hie e.symm)]
        exact H1 i j hedge hjlen hie hj0

lemma heappush_isHeap (hA : ∀ a b, lt a b = true → lt b a = false)
    (hT : ∀ a b c, lt b a = false → lt c b = false → lt c a = false)
    {h : List α} (hh : IsHeap lt h) (x : α) : IsHeap lt (heappush lt h x) := by
  rw [heappush]
  refine siftdownAux_isHeap hA hT _ _ _ (by simp) ?_ ?_ ?_
  · intro i j hedge hjlen hip hjp
    rw [List.length_append, List.length_singleton] at hjlen
    have hj : j < h.length := by omega
    have hi : i < h.length := by omega
    rw [nth_append_left _ _ hj, nth_append_left _ _ hi]
    exact hh i j hedge hj
  · intro c hc hclen _
    rw [List.length_append, List.length_singleton] at hclen
    omega
  · intro c hc hclen
    rw [List.length_append, List.length_singleton] at hclen
    omega

lemma siftupLoop_holeInv (hA : ∀ a b, lt a b = true → lt b a = false)
    (pos : ℕ) (h : List α) (hpos : pos < h.length) (hinv : HoleInv lt h pos) :
    HoleInv lt (siftupLoop lt h pos).1 (siftupLoop lt h pos).2 := by
  suffices H : ∀ n pos (h : List α), h.length - pos = n → pos < h.length →
      HoleInv lt h pos → HoleInv lt (siftupLoop lt h pos).1 (siftupLoop lt h pos).2 by
    exact H _ pos h rfl hpos hinv
  intro n
  induction n using Nat.strong_induction_on with
  | _ n ih =>
  intro pos h hn hpos hinv
  have step : ∀ cp, (cp = 2 * pos + 1 ∨ cp = 2 * pos + 2) → cp < h.length →
      (∀ j, (j = 2 * pos + 1 ∨ j = 2 * pos + 2) → j < h.length → j ≠ cp →
        lt (nth h j) (nth h cp) = false) →
      HoleInv lt (h.set pos (nth h cp)) cp := by
    intro cp hcp hcplen hsib
    constructor
    · intro i j hedge hjlen hicp hjcp
      rw [List.length_set] at hjlen
      by_cases hje : j = pos
      · have hi : i = (pos - 1) / 2 := by omega
        have hne : pos ≠ (pos - 1) / 2 := by omega
        rw [hje, hi, nth_set_self h _ _ hpos, nth_set_ne h _ hne]
        exact hinv.2 cp hcp hcplen (by omega)
      · by_cases hie : i = pos
        · rw [hie, nth_set_self h _ _ hpos, nth_set_ne h _ (fun e => hje e.symm)]
          exact hsib j (hie ▸ hedge) hjlen hjcp
        · rw [nth_set_ne h _ (fun e => hje e.symm), nth_set_ne h _ (fun e => hie e.symm)]
          exact hinv.1 i j hedge hjlen hie hje
    · intro d hd hdlen hcp0
      rw [List.length_set] at hdlen
      have hpar : (cp - 1) / 2 = pos := by omega
      have hne : pos ≠ d := by omega
      rw [hpar, nth_set_self h _ _ hpos, nth_set_ne h _ hne]
      exact hinv.1 cp d hd hdlen (by omega) (by omega)
  rw [siftupLoop_unfold]
  split
  · rename_i hc
    split
    · rename_i hcond
      refine ih (h.length - (2 * pos + 2)) (by omega) _ _ (by simp)
        (by rw [List.length_set]; omega) ?_
      refine step (2 * pos + 2) (by omega) (by omega) ?_
      intro j hj hjlen hjne
      have hj1 : j = 2 * pos + 1 := by omega
      subst hj1
      exact hcond.2
    · rename_i hcond
      refine ih (h.length - (2 * pos + 1)) (by omega) _ _ (by simp)
        (by rw [List.length_set]; omega) ?_
      refine step (2 * pos + 1) (by omega) (by omega) ?_
      intro j hj hjlen hjne
      have hj2 : j = 2 * pos + 2 := by omega
      subst hj2
      have : ¬ (2 * pos + 2 < h.length ∧
          lt (nth h (2 * pos + 1)) (nth h (2 * pos + 2)) = false) := hcond
      have hlt : lt (nth h (2 * pos + 1)) (nth h (2 * pos + 2)) = true := by
        rcases Bool.eq_false_or_eq_true (lt (nth h (2 * pos + 1)) (nth h (2 * pos + 2))) with ht | hf
        · exact ht
        · exact absurd ⟨hjlen, hf⟩ this
      exact hA _ _ hlt
  · exact hinv

lemma siftup_isHeap (hA : ∀ a b, lt a b = true → lt b a = false)
    (hT : ∀ a b c, lt b a = false → lt c b = false → lt c a = false)
    (h : List α) (h0 : 0 < h.length) (hinv : HoleInv lt h 0) :
    IsHeap lt (siftup lt h 0) := by
  have hlen := @siftupLoop_length _ _ lt 0 h
  have hbound := @siftupLoop_pos_lt _ _ lt 0 h h0
  have hInv := siftupLoop_holeInv hA 0 h h0 hinv
  rw [siftup]
  refine siftdownAux_isHeap hA hT _ _ _ (by rw [hlen]; exact hbound.1) hInv.1 hInv.2 ?_
  intro c hc hclen
  rw [hlen] at hclen
  omega

end HeapOrder

/-! ### Top-level heappush/heappop lemmas -/

section HeapTop

variable {α : Type} [Inhabited α] {lt : α → α → Bool}

lemma set_append_len (l : List α) (x y : α) : (l ++ [x]).set l.length y = l ++ [y] := by
  induction l with
  | nil => rfl
  | cons a t ih => simpa using ih

lemma heappush_length (h : List α) (x : α) : (heappush lt h x).length = h.length + 1 := by
  rw [heappush, siftdownAux_length]
  simp

lemma heappush_ms (h : List α) (x : α) :
    (↑(heappush lt h x) : Multiset α) = ↑h + {x} := by
  rw [heappush, siftdownAux_ms _ _ _ (by simp), set_append_len]
  rfl

lemma heappop_none_iff (h : List α) : heappop lt h = none ↔ h = [] := by
  rw [heappop]
  rcases h.eq_nil_or_concat with rfl | ⟨l, a, rfl⟩
  · simp
  · simp only [List.concat_eq_append, List.getLast?_concat]
    constructor
    · intro hcontra
      split at hcontra <;> simp at hcontra
    · intro hcontra
      simp at hcontra

lemma heappop_big (hA : ∀ a b, lt a b = true → lt b a = false)
    (hT : ∀ a b c, lt b a = false → lt c b = false → lt c a = false)
    (h : List α) (hne : h ≠ []) (hh : IsHeap lt h) :
    ∃ h', heappop lt h = some (nth h 0, h') ∧
      (↑h : Multiset α) = ↑h' + {nth h 0} ∧
      h'.length + 1 = h.length ∧ IsHeap lt h' := by
  obtain ⟨l, a, rfl⟩ := h.eq_nil_or_concat.resolve_left hne
  simp only [List.concat_eq_append] at hh ⊢
  rw [heappop, List.getLast?_concat]
  have hdrop : (l ++ [a]).dropLast = l := by simp
  rcases List.eq_nil_or_concat l with rfl | hlne
  · refine ⟨[], ?_, ?_, by simp, ?_⟩
    · simp [hdrop]
      rfl
    · simp
      rfl
    · intro i j hedge hjlen
      simp at hjlen
  · have hl : l ≠ [] := by rcases hlne with ⟨l', b, rfl⟩; simp
    have hl0 : 0 < l.length := List.length_pos.mpr hl
    have hlnE : l.isEmpty = false := by simpa [List.isEmpty_iff] using hl
    rw [hdrop]
    simp only [hlnE, Bool.false_eq_true, if_false]
    have hset0 : 0 < (l.set 0 a).length := by rwa [List.length_set]
    have hInv : HoleInv lt (l.set 0 a) 0 := by
      constructor
      · intro i j hedge hjlen hi0 hj0
        rw [List.length_set] at hjlen
        rw [nth_set_ne l _ (fun e => hj0 e.symm), nth_set_ne l _ (fun e => hi0 e.symm)]
        have hjl : j < (l ++ [a]).length := by simp; omega
        have hnthj : nth (l ++ [a]) j = nth l j := nth_append_left _ _ hjlen
        have hi : i < l.length := by omega
        have hnthi : nth (l ++ [a]) i = nth l i := nth_append_left _ _ hi
        have := hh i j hedge hjl
        rwa [hnthj, hnthi] at this
      · intro c hc hclen hc0
        omega
    refine ⟨siftup lt (l.set 0 a) 0, ?_, ?_, ?_, siftup_isHeap hA hT _ hset0 hInv⟩
    · have : nth (l ++ [a]) 0 = nth l 0 := nth_append_left _ _ hl0
      rw [this]
    · have h1 : (↑(siftup lt (l.set 0 a) 0) : Multiset α) = ↑(l.set 0 a) :=
        siftup_ms _ hset0
      have h2 := ms_set l a hl0
      have h3 : nth (l ++ [a]) 0 = nth l 0 := nth_append_left _ _ hl0
      rw [h3, h1, h2]
      rfl
    · rw [siftup_length, List.length_set]
      simp

lemma heappush_perm (h : List α) (x : α) : (heappush lt h x).Perm (x :: h) := by
  rw [← Multiset.coe_eq_coe, heappush_ms, add_comm, Multiset.singleton_add, Multiset.cons_coe]

end HeapTop

/-! ### The entry comparison is the strict lexicographic order on keys -/

lemma entryLt_iff_key (a b : ℤ × ℚ × Packet) :
    entryLt a b = true ↔ entryKey a < entryKey b := by
  obtain ⟨a1, a2, a3⟩ := a
  obtain ⟨b1, b2, b3⟩ := b
  show entryLt (a1, a2, a3) (b1, b2, b3) = true ↔ _
  rw [entryLt, pktLt, entryKey, entryKey]
  simp only [Prod.Lex.lt_iff]
  dsimp only
  split_ifs with h1 h2 h3
  · simp only [decide_eq_true_eq]
    constructor
    · exact fun h => Or.inl h
    · rintro (h | ⟨he, _⟩)
      · exact h
      · exact absurd he h1
  · rw [not_ne_iff] at h1
    subst h1
    simp only [decide_eq_true_eq, lt_irrefl, false_or, true_and, eq_self_iff_true]
    constructor
    · exact fun h => Or.inl h
    · rintro (h | ⟨he, _⟩)
      · exact h
      · exact absurd he h2
  · rw [not_ne_iff] at h1 h2
    subst h1
    subst h2
    simp only [decide_eq_true_eq, lt_irrefl, false_or, true_and, eq_self_iff_true]
    constructor
    · exact fun h => Or.inl h
    · rintro (h | ⟨he, _⟩)
      · exact h
      · exact absurd he h3
  · rw [not_ne_iff] at h1 h2 h3
    subst h1
    subst h2
    simp only [decide_eq_true_eq, lt_irrefl, false_or, true_and, eq_self_iff_true, h3]

lemma entryLt_asym (a b : ℤ × ℚ × Packet) :
    entryLt a b = true → entryLt b a = false := by
  intro hab
  cases hba : entryLt b a
  · rfl
  · exact absurd ((entryLt_iff_key b a).mp hba)
      (lt_asymm ((entryLt_iff_key a b).mp hab))

lemma entryLt_key_le {a b : ℤ × ℚ × Packet} (h : entryLt b a = false) :
    entryKey a ≤ entryKey b := by
  refine le_of_not_lt fun hk => ?_
  have hba := (entryLt_iff_key b a).mpr hk
  rw [h] at hba
  simp at hba

lemma entryLt_le_trans (a b c : ℤ × ℚ × Packet) :
    entryLt b a = false → entryLt c b = false → entryLt c a = false := by
  intro h1 h2
  have k1 : entryKey a ≤ entryKey b := entryLt_key_le h1
  have k2 : entryKey b ≤ entryKey c := entryLt_key_le h2
  cases hca : entryLt c a
  · rfl
  · exact absurd ((entryLt_iff_key c a).mp hca) (not_lt_of_le (le_trans k1 k2))

/-- Under well-formed entries, entry order below gives the packet ordering
(priority ascending, ties by arrival time). -/
lemma entry_le_pktLe {e e' : ℤ × ℚ × Packet} (he : WFEntry e) (he' : WFEntry e')
    (h : entryLt e' e = false) :
    e.2.2.priority < e'.2.2.priority ∨
      (e.2.2.priority = e'.2.2.priority ∧ e.2.2.arrival_time ≤ e'.2.2.arrival_time) := by
  have hk := entryLt_key_le h
  rw [entryKey, entryKey, he.1, he.2, he'.1, he'.2] at hk
  rw [Prod.Lex.le_iff] at hk
  rcases hk with hk | ⟨hk1, hk2⟩
  · exact Or.inl hk
  · rw [Prod.Lex.le_iff] at hk2
    rcases hk2 with hk2 | ⟨hk2, _⟩
    · exact Or.inr ⟨hk1, le_of_lt hk2⟩
    · exact Or.inr ⟨hk1, le_of_eq hk2⟩

/-- `heappop` on a non-empty list shrinks it by exactly one element. -/
lemma heappop_len {α : Type} [Inhabited α] {lt : α → α → Bool} {h : List α}
    {e : α} {h' : List α} (hp : heappop lt h = some (e, h')) :
    h'.length + 1 = h.length := by
  rcases h.eq_nil_or_concat with rfl | ⟨l, a, rfl⟩
  · simp [heappop] at hp
  · simp only [List.concat_eq_append] at hp ⊢
    simp only [heappop, List.getLast?_concat,
      show (l ++ [a]).dropLast = l from by simp] at hp
    by_cases hl : l.isEmpty
    · rw [if_pos hl] at hp
      have h2 : h' = [] := (Prod.mk.injEq _ _ _ _ ▸ (Option.some_injective _ hp) : _).2.symm
      rw [h2, List.isEmpty_iff.mp hl]
      simp
    · rw [if_neg hl] at hp
      have h2 : h' = siftup lt (l.set 0 a) 0 :=
        ((Prod.mk.injEq _ _ _ _ ▸ (Option.some_injective _ hp) : _).2).symm
      rw [h2, siftup_length, List.length_set]
      simp

/-! ### Queue-manager operation lemmas -/

lemma flowPackets_cons (f : ℤ) (q : List Packet) (rest : List (ℤ × List Packet)) :
    flowPackets ((f, q) :: rest) = q ++ flowPackets rest := by
  simp [flowPackets]

lemma flowAppend_len (fq : List (ℤ × List Packet)) (fid : ℤ) (p : Packet) :
    (flowPackets (flowAppend fq fid p)).length = (flowPackets fq).length + 1 := by
  induction fq with
  | nil => simp [flowAppend, flowPackets]
  | cons pr rest ih =>
    obtain ⟨f, q⟩ := pr
    rw [flowAppend]
    split
    · simp [flowPackets_cons]
      omega
    · rw [flowPackets_cons, flowPackets_cons, List.length_append, List.length_append, ih]
      omega

lemma rrPop_len {fq : List (ℤ × List Packet)} {fid : ℤ} {p : Packet} {q' : List Packet}
    (hget : flowGet fq fid = some (p :: q')) :
    (rrPop fq fid).1 = some p ∧
      (flowPackets (rrPop fq fid).2).length + 1 = (flowPackets fq).length := by
  induction fq with
  | nil => simp [flowGet] at hget
  | cons pr rest ih =>
    obtain ⟨f, q⟩ := pr
    rw [flowGet] at hget
    by_cases hf : f = fid
    · rw [if_pos hf] at hget
      have hq : q = p :: q' := Option.some_injective _ hget
      subst hq
      have hr : rrPop ((f, p :: q') :: rest) fid
          = (some p, if q' = [] then rest else (f, q') :: rest) := by
        simp only [rrPop, if_pos hf]
      rw [hr]
      by_cases hq' : q' = []
      · subst hq'
        simp [flowPackets_cons]
      · rw [if_neg hq']
        simp [flowPackets_cons]
    · rw [if_neg hf] at hget
      have hr := ih hget
      have hrw : rrPop ((f, q) :: rest) fid
          = ((rrPop rest fid).1, (f, q) :: (rrPop rest fid).2) := by
        simp only [rrPop, if_neg hf]
      rw [hrw]
      simp only [flowPackets_cons, List.length_append]
      exact ⟨hr.1, by omega⟩

lemma enqueue_policy (qm : QueueManager) (p : Packet) :
    (enqueue qm p).policy = qm.policy := by
  obtain ⟨pol, qu, hp, fq, lf, w, wf, wv⟩ := qm
  cases pol <;> rfl

lemma dequeue_policy (qm : QueueManager) : (dequeue qm).2.policy = qm.policy := by
  obtain ⟨pol, qu, hp, fq, lf, w, wf, wv⟩ := qm
  cases pol
  · cases qu <;> rfl
  · rcases hpop : heappop entryLt hp with _ | ⟨e, h2⟩ <;> simp [dequeue, hpop]
  · simp only [dequeue]
    split
    · rfl
    · rcases hfind : rrFind fq (sortedKeys fq) (rrStart (sortedKeys fq) lf) with _ | fid
      · simp [hfind]
      · rcases hpop : rrPop fq fid with ⟨o, fq'⟩
        cases o <;> simp [hfind, hpop]
  · rfl

lemma dequeue_none_eq {qm : QueueManager} (h : (dequeue qm).1 = none) :
    (dequeue qm).2 = qm := by
  obtain ⟨pol, qu, hp, fq, lf, w, wf, wv⟩ := qm
  cases pol
  · cases qu
    · rfl
    · simp [dequeue] at h
  · rcases hpop : heappop entryLt hp with _ | ⟨e, h2⟩
    · simp [dequeue, hpop]
    · simp [dequeue, hpop] at h
  · by_cases hany : flowAny fq = false
    · simp [dequeue, hany]
    · rcases hfind : rrFind fq (sortedKeys fq) (rrStart (sortedKeys fq) lf) with _ | fid
      · simp [dequeue, hany, hfind]
      · rcases hpop : rrPop fq fid with ⟨o, fq'⟩
        cases o
        · simp [dequeue, hany, hfind, hpop]
        · simp [dequeue, hany, hfind, hpop] at h
  · rfl

lemma resCount_mk (pol : Policy) : resCount (mkQueueManager pol) = 0 := rfl

lemma resCount_enqueue (qm : QueueManager) (p : Packet) (hpol : qm.policy ≠ Policy.wfq) :
    resCount (enqueue qm p) = resCount qm + 1 := by
  obtain ⟨pol, qu, hp, fq, lf, w, wf, wv⟩ := qm
  cases pol
  · simp [enqueue, resCount, resPackets]
    omega
  · have hlen := @heappush_length _ _ entryLt hp (p.priority, p.arrival_time, p)
    simp [enqueue, resCount, resPackets, hlen]
    omega
  · simp [enqueue, resCount, resPackets, flowAppend_len]
    omega
  · exact absurd rfl hpol

lemma enqueue_wfq (qm : QueueManager) (p : Packet) (hpol : qm.policy = Policy.wfq) :
    enqueue qm p = qm := by
  obtain ⟨pol, qu, hp, fq, lf, w, wf, wv⟩ := qm
  cases hpol
  rfl

lemma resCount_enqueue_le (qm : QueueManager) (p : Packet) :
    resCount (enqueue qm p) ≤ resCount qm + 1 := by
  by_cases hpol : qm.policy = Policy.wfq
  · rw [enqueue_wfq qm p hpol]
    omega
  · rw [resCount_enqueue qm p hpol]

lemma rrFind_some {fq : List (ℤ × List Packet)} {ids : List ℤ} {start : ℕ} {fid : ℤ}
    (h : rrFind fq ids start = some fid) :
    ∃ p q', flowGet fq fid = some (p :: q') := by
  rw [rrFind] at h
  rw [Option.map_eq_some'] at h
  obtain ⟨j, hj, rfl⟩ := h
  have hp := List.find?_some hj
  cases hget : flowGet fq (nth ids ((start + j) % ids.length)) with
  | none => rw [hget] at hp; simp at hp
  | some q =>
    rw [hget] at hp
    cases q with
    | nil => simp at hp
    | cons p q' => exact ⟨p, q', rfl⟩

lemma dequeue_some_res {qm : QueueManager} {p : Packet} (h : (dequeue qm).1 = some p) :
    resCount (dequeue qm).2 + 1 = resCount qm := by
  obtain ⟨pol, qu, hp, fq, lf, w, wf, wv⟩ := qm
  cases pol
  · cases hq : qu with
    | nil => rw [hq] at h; simp [dequeue] at h
    | cons a rest =>
      subst hq
      simp [dequeue, resCount, resPackets]
  · rcases hpop : heappop entryLt hp with _ | ⟨e, h2⟩
    · rw [dequeue] at h
      simp only [hpop] at h
      simp at h
    · have hlen := heappop_len hpop
      simp [dequeue, hpop, resCount, resPackets]
      omega
  · by_cases hany : flowAny fq = false
    · simp [dequeue, hany] at h
    · rcases hfind : rrFind fq (sortedKeys fq) (rrStart (sortedKeys fq) lf) with _ | fid
      · simp [dequeue, hany, hfind] at h
      · obtain ⟨a, q', hget⟩ := rrFind_some hfind
        have hpl := rrPop_len hget
        rcases hpop : rrPop fq fid with ⟨o, fq'⟩
        rw [hpop] at hpl
        cases o
        · simp [dequeue, hany, hfind, hpop] at h
        · simp only at hpl
          simp [dequeue, hany, hfind, hpop, resCount, resPackets]
          omega
  · simp [dequeue] at h

/-! ### Flow-queue invariant lemmas -/

lemma flowAny_false_nil {fq : List (ℤ × List Packet)} (h : flowAny fq = false)
    (hq : ∀ pr ∈ fq, pr.2 ≠ ([] : List Packet)) : fq = [] := by
  cases fq with
  | nil => rfl
  | cons pr rest =>
    exfalso
    obtain ⟨f, q⟩ := pr
    rw [flowAny] at h
    simp at h
    exact hq (f, q) (List.mem_cons_self _ _) h.1

lemma flowGet_of_mem_keys {fq : List (ℤ × List Packet)} {fid : ℤ}
    (h : fid ∈ flowKeys fq) : ∃ q, flowGet fq fid = some q ∧ (fid, q) ∈ fq := by
  induction fq with
  | nil => simp [flowKeys] at h
  | cons pr rest ih =>
    obtain ⟨f, q⟩ := pr
    by_cases hf : f = fid
    · subst hf
      exact ⟨q, by rw [flowGet, if_pos rfl], List.mem_cons_self _ _⟩
    · rw [flowKeys, List.map_cons] at h
      rcases List.mem_cons.mp h with h | h
      · exact absurd h.symm hf
      · obtain ⟨q', hq', hmem⟩ := ih h
        exact ⟨q', by rw [flowGet, if_neg hf]; exact hq', List.mem_cons_of_mem _ hmem⟩

lemma sortedKeys_perm (fq : List (ℤ × List Packet)) :
    (sortedKeys fq).Perm (flowKeys fq) :=
  List.perm_insertionSort intLe (flowKeys fq)

lemma sortedKeys_sorted (fq : List (ℤ × List Packet)) :
    (sortedKeys fq).Sorted intLe :=
  List.sorted_insertionSort intLe (flowKeys fq)

lemma rrFind_isSome {fq : List (ℤ × List Packet)} (start : ℕ) (hne : fq ≠ [])
    (hq : ∀ pr ∈ fq, pr.2 ≠ ([] : List Packet)) :
    (rrFind fq (sortedKeys fq) start).isSome := by
  have hlen : (sortedKeys fq).length = fq.length := by
    rw [(sortedKeys_perm fq).length_eq]
    simp [flowKeys]
  have hpos : 0 < (sortedKeys fq).length := by
    rw [hlen]
    exact List.length_pos.mpr hne
  rw [rrFind, Option.isSome_map']
  rw [List.find?_isSome]
  refine ⟨0, List.mem_range.mpr hpos, ?_⟩
  have hmod : (start + 0) % (sortedKeys fq).length < (sortedKeys fq).length :=
    Nat.mod_lt _ hpos
  have hmem : nth (sortedKeys fq) ((start + 0) % (sortedKeys fq).length) ∈ flowKeys fq :=
    (sortedKeys_perm fq).mem_iff.mp (nth_mem _ hmod)
  obtain ⟨q, hget, hqmem⟩ := flowGet_of_mem_keys hmem
  rw [hget]
  have : q ≠ [] := hq _ hqmem
  simpa [List.isEmpty_iff]

lemma rrPop_nonempty {fq : List (ℤ × List Packet)} {fid : ℤ}
    (hq : ∀ pr ∈ fq, pr.2 ≠ ([] : List Packet)) :
    ∀ pr ∈ (rrPop fq fid).2, pr.2 ≠ ([] : List Packet) := by
  induction fq with
  | nil => simp [rrPop]
  | cons pr rest ih =>
    obtain ⟨f, q⟩ := pr
    intro pr' hpr'
    by_cases hf : f = fid
    · cases q with
      | nil =>
        simp only [rrPop, if_pos hf] at hpr'
        exact hq pr' hpr'
      | cons p q' =>
        simp only [rrPop, if_pos hf] at hpr'
        by_cases hq' : q' = []
        · subst hq'
          simp only [if_pos rfl] at hpr'
          exact hq pr' (List.mem_cons_of_mem _ hpr')
        · rw [if_neg hq'] at hpr'
          rcases List.mem_cons.mp hpr' with rfl | hmem
          · exact hq'
          · exact hq pr' (List.mem_cons_of_mem _ hmem)
    · simp only [rrPop, if_neg hf] at hpr'
      rcases List.mem_cons.mp hpr' with rfl | hmem
      · exact hq _ (List.mem_cons_self _ _)
      · exact ih (fun x hx => hq x (List.mem_cons_of_mem _ hx)) _ hmem

lemma rrPop_keys_sublist (fq : List (ℤ × List Packet)) (fid : ℤ) :
    (flowKeys (rrPop fq fid).2).Sublist (flowKeys fq) := by
  induction fq with
  | nil => simp [rrPop]
  | cons pr rest ih =>
    obtain ⟨f, q⟩ := pr
    by_cases hf : f = fid
    · cases q with
      | nil =>
        simp only [rrPop, if_pos hf]
        exact List.Sublist.refl _
      | cons p q' =>
        by_cases hq' : q' = []
        · subst hq'
          simp only [rrPop, if_pos hf, if_pos rfl]
          exact (List.Sublist.refl _).cons _
        · simp only [rrPop, if_pos hf, if_neg hq']
          exact List.Sublist.refl _
    · simp only [rrPop, if_neg hf]
      simp only [flowKeys, List.map_cons]
      exact List.Sublist.cons₂ _ ih

lemma flowKeys_append (fq : List (ℤ × List Packet)) (fid : ℤ) (p : Packet) :
    flowKeys (flowAppend fq fid p)
      = if fid ∈ flowKeys fq then flowKeys fq else flowKeys fq ++ [fid] := by
  induction fq with
  | nil => simp [flowAppend, flowKeys]
  | cons pr rest ih =>
    obtain ⟨f, q⟩ := pr
    by_cases hf : f = fid
    · subst hf
      rw [flowAppend, if_pos rfl]
      simp [flowKeys]
    · rw [flowAppend, if_neg hf]
      simp only [flowKeys, List.map_cons] at ih ⊢
      rw [ih]
      by_cases hmem : fid ∈ List.map (·.1) rest
      · rw [if_pos hmem, if_pos (by simp [hmem])]
      · rw [if_neg hmem, if_neg (by simp [hmem, Ne.symm hf]), List.cons_append]

lemma flowAppend_mem {fq : List (ℤ × List Packet)} {fid : ℤ} {p : Packet} :
    ∀ pr ∈ flowAppend fq fid p, pr.2 ≠ ([] : List Packet) →
      pr ∈ fq ∨ pr.2 ≠ ([] : List Packet) := by
  intro pr _ h
  exact Or.inr h

lemma RRInv_append {fq : List (ℤ × List Packet)} (fid : ℤ) (p : Packet)
    (hinv : RRInv fq) : RRInv (flowAppend fq fid p) := by
  constructor
  · intro pr hpr
    induction fq with
    | nil =>
      simp [flowAppend] at hpr
      subst hpr
      simp
    | cons hd rest ih =>
      obtain ⟨f, q⟩ := hd
      by_cases hf : f = fid
      · rw [flowAppend, if_pos hf] at hpr
        rcases List.mem_cons.mp hpr with rfl | hmem
        · simp
        · exact hinv.1 pr (List.mem_cons_of_mem _ hmem)
      · rw [flowAppend, if_neg hf] at hpr
        rcases List.mem_cons.mp hpr with rfl | hmem
        · exact hinv.1 _ (List.mem_cons_self _ _)
        · refine ih ⟨fun x hx => hinv.1 x (List.mem_cons_of_mem _ hx), ?_⟩ hmem
          exact (List.nodup_cons.mp hinv.2).2
  · rw [flowKeys_append]
    split
    · exact hinv.2
    · rename_i hmem
      simp only [List.nodup_append, List.nodup_singleton]
      exact ⟨hinv.2, by simp, by simpa using hmem⟩

lemma RRInv_rrPop {fq : List (ℤ × List Packet)} (fid : ℤ) (hinv : RRInv fq) :
    RRInv (rrPop fq fid).2 :=
  ⟨rrPop_nonempty hinv.1, hinv.2.sublist (rrPop_keys_sublist fq fid)⟩

/-! ### Event-loop termination -/

lemma getElem?_some_lt {l : List Packet} {i : ℕ} {p : Packet} (h : l[i]? = some p) :
    i < l.length := by
  by_contra hc
  push_neg at hc
  rw [List.getElem?_eq_none hc] at h
  exact Option.noConfusion h

lemma getElem?_none_le {l : List Packet} {i : ℕ} (h : l[i]? = none) : l.length ≤ i := by
  by_contra hc
  push_neg at hc
  rw [List.getElem?_eq_getElem hc] at h
  exact Option.noConfusion h

lemma idleFlag_le (pkts : List Packet) (i : ℕ) (t : ℚ) : idleFlag pkts i t ≤ 1 := by
  rw [idleFlag]
  cases pkts[i]? with
  | none => simp
  | some pkt =>
    dsimp only
    split <;> simp

lemma dequeue_pair_some {qm : QueueManager} {p : Packet} {qm' : QueueManager}
    (h : dequeue qm = (some p, qm')) : resCount qm' + 1 = resCount qm := by
  have h1 := dequeue_some_res (show (dequeue qm).1 = some p by rw [h])
  rwa [h] at h1

lemma dequeue_pair_none {qm qm' : QueueManager} (h : dequeue qm = (none, qm')) :
    qm' = qm := by
  have h1 := dequeue_none_eq (show (dequeue qm).1 = none by rw [h])
  rwa [h] at h1

lemma loopStep_inl_measure {pkts : List Packet} {iv : ℚ} {s s' : LoopState}
    (h : loopStep pkts iv s = Sum.inl s') :
    loopMeasure pkts s' < loopMeasure pkts s := by
  rw [loopStep] at h
  split at h
  · cases harr : pkts[s.i]? with
    | some pkt =>
      simp only [harr] at h
      split at h
      · rename_i hle
        injection h with h2
        subst h2
        have hi := getElem?_some_lt harr
        have hres := resCount_enqueue_le s.qm pkt
        have hB := idleFlag_le pkts (s.i + 1) s.next_send_time
        simp only [loopMeasure]
        omega
      · rename_i hgt
        rw [sendStep] at h
        rcases hdq : dequeue s.qm with ⟨o, qm'⟩
        simp only [hdq] at h
        cases o with
        | some p =>
          injection h with h2
          subst h2
          have hres := dequeue_pair_some hdq
          have hB := idleFlag_le pkts s.i (s.next_send_time + iv)
          simp only [loopMeasure]
          omega
        | none =>
          simp only [harr] at h
          injection h with h2
          subst h2
          have hqm := dequeue_pair_none hdq
          subst hqm
          have hB1 : idleFlag pkts s.i s.next_send_time = 1 := by
            rw [idleFlag, harr]
            dsimp only
            rw [if_pos (not_le.mp hgt)]
          have hB0 : idleFlag pkts s.i pkt.arrival_time = 0 := by
            rw [idleFlag, harr]
            dsimp only
            rw [if_neg (lt_irrefl _)]
          simp only [loopMeasure]
          omega
    | none =>
      simp only [harr] at h
      rw [sendStep] at h
      rcases hdq : dequeue s.qm with ⟨o, qm'⟩
      simp only [hdq] at h
      cases o with
      | some p =>
        injection h with h2
        subst h2
        have hres := dequeue_pair_some hdq
        have hB0 : idleFlag pkts s.i s.next_send_time = 0 := by
          rw [idleFlag, harr]
        have hB0' : idleFlag pkts s.i (s.next_send_time + iv) = 0 := by
          rw [idleFlag, harr]
        simp only [loopMeasure]
        omega
      | none =>
        simp only [harr] at h
        exact Sum.noConfusion h
  · exact Sum.noConfusion h

lemma runLoop_isSome (pkts : List Packet) (iv : ℚ) :
    ∀ fuel s, loopMeasure pkts s < fuel → (runLoop pkts iv fuel s).isSome := by
  intro fuel
  induction fuel with
  | zero => intro s h; omega
  | succ f ih =>
    intro s h
    rw [runLoop]
    cases hstep : loopStep pkts iv s with
    | inr t => simp
    | inl s' =>
      have := loopStep_inl_measure hstep
      exact ih s' (by omega)

/-! ### Event-loop invariant -/

lemma dequeue_wfq {qm : QueueManager} (h : qm.policy = Policy.wfq) :
    dequeue qm = (none, qm) := by
  obtain ⟨pol, qu, hp, fq, lf, w, wf, wv⟩ := qm
  dsimp only at h
  subst h
  rfl

lemma sendCount_append_send (evs : List Event) (t : ℚ) (p : Packet) :
    sendCount (evs ++ [Event.sendEv t p]) = sendCount evs + 1 := by
  simp [sendCount, List.countP_append, List.countP_cons, isSendEv]

lemma sendCount_append_enq (evs : List Event) (t : ℚ) (p : Packet) :
    sendCount (evs ++ [Event.enqueueEv t p]) = sendCount evs := by
  simp [sendCount, List.countP_append, List.countP_cons, isSendEv]

lemma enqCount_append_send (evs : List Event) (t : ℚ) (p : Packet) :
    enqCount (evs ++ [Event.sendEv t p]) = enqCount evs := by
  simp [enqCount, List.countP_append, List.countP_cons, isSendEv]

lemma enqCount_append_enq (evs : List Event) (t : ℚ) (p : Packet) :
    enqCount (evs ++ [Event.enqueueEv t p]) = enqCount evs + 1 := by
  simp [enqCount, List.countP_append, List.countP_cons, isSendEv]

lemma stores_enqueue {pol : Policy} {qm : QueueManager} (hpol : qm.policy = pol)
    (hok : StoresOK pol qm) (p : Packet) : StoresOK pol (enqueue qm p) := by
  obtain ⟨pol', qu, hp, fq, lf, w, wf, wv⟩ := qm
  dsimp only at hpol
  subst hpol
  cases pol'
  · exact hok
  · exact hok
  · simp only [StoresOK] at hok ⊢
    exact ⟨hok.1, hok.2.1, RRInv_append _ _ hok.2.2⟩
  · exact hok

lemma stores_dequeue {pol : Policy} {qm : QueueManager} (hpol : qm.policy = pol)
    (hok : StoresOK pol qm) : StoresOK pol (dequeue qm).2 := by
  obtain ⟨pol', qu, hp, fq, lf, w, wf, wv⟩ := qm
  dsimp only at hpol
  subst hpol
  cases pol'
  · cases qu
    · exact hok
    · exact hok
  · rcases hpop : heappop entryLt hp with _ | ⟨e, h2⟩ <;> simp only [dequeue, hpop] <;>
      exact hok
  · by_cases hany : flowAny fq = false
    · simp only [dequeue, if_pos hany]
      exact hok
    · rcases hfind : rrFind fq (sortedKeys fq) (rrStart (sortedKeys fq) lf) with _ | fid
      · simp only [dequeue, if_neg hany, hfind]
        exact hok
      · rcases hpop : rrPop fq fid with ⟨o, fq'⟩
        cases o
        · simp only [dequeue, if_neg hany, hfind, hpop]
          exact hok
        · simp only [dequeue, if_neg hany, hfind, hpop]
          simp only [StoresOK] at hok ⊢
          refine ⟨hok.1, hok.2.1, ?_⟩
          have := RRInv_rrPop fid hok.2.2
          rwa [hpop] at this
  · exact hok

lemma queues_empty_res {pol : Policy} {qm : QueueManager} (hpol : qm.policy = pol)
    (hok : StoresOK pol qm) (h : queues_empty qm = true) : resCount qm = 0 := by
  obtain ⟨pol', qu, hp, fq, lf, w, wf, wv⟩ := qm
  dsimp only at hpol
  subst hpol
  cases pol'
  · simp only [queues_empty] at h
    simp only [StoresOK] at hok
    simp [resCount, resPackets, List.isEmpty_iff.mp h, hok.1, hok.2, flowPackets]
  · simp only [queues_empty] at h
    simp only [StoresOK] at hok
    simp [resCount, resPackets, List.isEmpty_iff.mp h, hok.1, hok.2, flowPackets]
  · simp only [queues_empty] at h
    simp only [StoresOK] at hok
    have hfq : fq = [] := flowAny_false_nil (by simpa using h) hok.2.2.1
    simp [resCount, resPackets, hok.1, hok.2.1, hfq, flowPackets]
  · simp only [StoresOK] at hok
    simp [resCount, resPackets, hok.1, hok.2.1, hok.2.2, flowPackets]

lemma dequeue_none_res {pol : Policy} {qm : QueueManager} (hpol : qm.policy = pol)
    (hok : StoresOK pol qm) (h : (dequeue qm).1 = none) : resCount qm = 0 := by
  obtain ⟨pol', qu, hp, fq, lf, w, wf, wv⟩ := qm
  dsimp only at hpol
  subst hpol
  cases pol'
  · cases qu with
    | nil =>
      simp only [StoresOK] at hok
      simp [resCount, resPackets, hok.1, hok.2, flowPackets]
    | cons a rest => simp [dequeue] at h
  · rcases hpop : heappop entryLt hp with _ | ⟨e, h2⟩
    · have hhp : hp = [] := (heappop_none_iff hp).mp hpop
      simp only [StoresOK] at hok
      simp [resCount, resPackets, hok.1, hok.2, hhp, flowPackets]
    · simp [dequeue, hpop] at h
  · simp only [StoresOK] at hok
    by_cases hany : flowAny fq = false
    · have hfq : fq = [] := flowAny_false_nil hany hok.2.2.1
      simp [resCount, resPackets, hok.1, hok.2.1, hfq, flowPackets]
    · exfalso
      have hne : fq ≠ [] := by
        intro hfq
        subst hfq
        exact hany rfl
      have hsome := rrFind_isSome (rrStart (sortedKeys fq) lf) hne hok.2.2.1
      obtain ⟨fid, hfind⟩ := Option.isSome_iff_exists.mp hsome
      obtain ⟨a, q', hget⟩ := rrFind_some hfind
      have hpl := rrPop_len hget
      rcases hpop : rrPop fq fid with ⟨o, fq'⟩
      rw [hpop] at hpl
      cases o
      · simp at hpl
      · simp [dequeue, hany, hfind, hpop] at h
  · simp only [StoresOK] at hok
    simp [resCount, resPackets, hok.1, hok.2.1, hok.2.2, flowPackets]

lemma LoopInv_init (pol : Policy) (pkts : List Packet) :
    LoopInv pol pkts (initLoopState pol) := by
  unfold LoopInv initLoopState
  refine ⟨rfl, ?_, by simp, by simp [enqCount], fun _ => by simp [sendCount], fun _ => ?_⟩
  · cases pol <;>
      simp [StoresOK, mkQueueManager, RRInv, flowKeys]
  · simp [sendCount, resCount, resPackets, mkQueueManager, flowPackets]

lemma loopStep_inl_inv {pol : Policy} {pkts : List Packet} {iv : ℚ} {s s' : LoopState}
    (hInv : LoopInv pol pkts s) (h : loopStep pkts iv s = Sum.inl s') :
    LoopInv pol pkts s' := by
  obtain ⟨hpol, hok, hile, henq, hwfq, hnw⟩ := hInv
  have sendSome : ∀ p qm', dequeue s.qm = (some p, qm') →
      LoopInv pol pkts ⟨s.i, s.next_send_time, s.next_send_time + iv, qm',
        s.events ++ [Event.sendEv s.next_send_time p]⟩ := by
    intro p qm' hdq
    have hres := dequeue_pair_some hdq
    have hpol' : qm'.policy = pol := by
      have := dequeue_policy s.qm
      rw [hdq] at this
      rw [show qm' = (some p, qm').2 from rfl, this, hpol]
    have hok' : StoresOK pol qm' := by
      have := stores_dequeue hpol hok
      rwa [hdq] at this
    refine ⟨hpol', hok', hile, ?_, ?_, ?_⟩
    · show enqCount (s.events ++ [Event.sendEv s.next_send_time p]) = s.i
      rw [enqCount_append_send]
      exact henq
    · intro hw
      exfalso
      have hd := @dequeue_wfq s.qm (by rw [hpol, hw])
      rw [hd] at hdq
      simp at hdq
    · intro hw
      show sendCount (s.events ++ [Event.sendEv s.next_send_time p]) + resCount qm' = s.i
      rw [sendCount_append_send]
      have := hnw hw
      omega
  rw [loopStep] at h
  split at h
  · cases harr : pkts[s.i]? with
    | some pkt =>
      simp only [harr] at h
      split at h
      · injection h with h2
        subst h2
        have hi := getElem?_some_lt harr
        refine ⟨?_, stores_enqueue hpol hok pkt, ?_, ?_, ?_, ?_⟩
        · show (enqueue s.qm pkt).policy = pol
          rw [enqueue_policy, hpol]
        · show s.i + 1 ≤ pkts.length
          omega
        · show enqCount (s.events ++ [Event.enqueueEv pkt.arrival_time pkt]) = s.i + 1
          rw [enqCount_append_enq, henq]
        · intro hw
          show sendCount (s.events ++ [Event.enqueueEv pkt.arrival_time pkt]) = 0
          rw [sendCount_append_enq]
          exact hwfq hw
        · intro hw
          show sendCount (s.events ++ [Event.enqueueEv pkt.arrival_time pkt])
              + resCount (enqueue s.qm pkt) = s.i + 1
          rw [sendCount_append_enq, resCount_enqueue _ _ (by rw [hpol]; exact hw)]
          have := hnw hw
          omega
      · rw [sendStep] at h
        rcases hdq : dequeue s.qm with ⟨o, qm'⟩
        simp only [hdq] at h
        cases o with
        | some p =>
          injection h with h2
          subst h2
          exact sendSome p qm' hdq
        | none =>
          simp only [harr] at h
          injection h with h2
          subst h2
          have hqm := dequeue_pair_none hdq
          subst hqm
          exact ⟨hpol, hok, hile, henq, hwfq, hnw⟩
    | none =>
      simp only [harr] at h
      rw [sendStep] at h
      rcases hdq : dequeue s.qm with ⟨o, qm'⟩
      simp only [hdq] at h
      cases o with
      | some p =>
        injection h with h2
        subst h2
        exact sendSome p qm' hdq
      | none =>
        simp only [harr] at h
        exact Sum.noConfusion h
  · exact Sum.noConfusion h

lemma loopStep_inr_spec {pkts : List Packet} {iv : ℚ} {s t : LoopState}
    (h : loopStep pkts iv s = Sum.inr t) :
    t.i = s.i ∧ t.events = s.events ∧ t.qm = s.qm ∧ pkts.length ≤ s.i ∧
      (queues_empty s.qm = true ∨ (dequeue s.qm).1 = none) := by
  rw [loopStep] at h
  split at h
  · cases harr : pkts[s.i]? with
    | some pkt =>
      simp only [harr] at h
      split at h
      · exact Sum.noConfusion h
      · rw [sendStep] at h
        rcases hdq : dequeue s.qm with ⟨o, qm'⟩
        simp only [hdq] at h
        cases o with
        | some p => exact Sum.noConfusion h
        | none =>
          simp only [harr] at h
          exact Sum.noConfusion h
    | none =>
      simp only [harr] at h
      rw [sendStep] at h
      rcases hdq : dequeue s.qm with ⟨o, qm'⟩
      simp only [hdq] at h
      cases o with
      | some p => exact Sum.noConfusion h
      | none =>
        simp only [harr] at h
        injection h with h2
        subst h2
        have hqm := dequeue_pair_none hdq
        subst hqm
        exact ⟨rfl, rfl, rfl, getElem?_none_le harr, Or.inr rfl⟩
  · rename_i hcond
    injection h with h2
    subst h2
    push_neg at hcond
    refine ⟨rfl, rfl, rfl, by omega, Or.inl ?_⟩
    have := hcond.2
    simp only [Bool.not_eq_false] at this
    exact this

lemma runLoop_final {pol : Policy} {pkts : List Packet} {iv : ℚ} :
    ∀ fuel (s t : LoopState), runLoop pkts iv fuel s = some t →
      LoopInv pol pkts s →
      enqCount t.events = pkts.length ∧
        (pol ≠ Policy.wfq → sendCount t.events = pkts.length) ∧
        (pol = Policy.wfq → sendCount t.events = 0) := by
  intro fuel
  induction fuel with
  | zero => intro s t h; exact absurd h (by simp [runLoop])
  | succ f ih =>
    intro s t h hInv
    rw [runLoop] at h
    cases hstep : loopStep pkts iv s with
    | inl s' =>
      rw [hstep] at h
      exact ih s' t h (loopStep_inl_inv hInv hstep)
    | inr t' =>
      rw [hstep] at h
      have ht : t' = t := Option.some_injective _ h
      subst ht
      obtain ⟨hpol, hok, hile, henq, hwfq, hnw⟩ := hInv
      obtain ⟨hi, hev, hqm, hlen, hempty⟩ := loopStep_inr_spec hstep
      have hieq : s.i = pkts.length := by omega
      have hres : resCount s.qm = 0 := by
        rcases hempty with he | hd
        · exact queues_empty_res hpol hok he
        · exact dequeue_none_res hpol hok hd
      refine ⟨by rw [hev, henq, hieq], fun hw => ?_, fun hw => ?_⟩
      · rw [hev]
        have := hnw hw
        omega
      · rw [hev]
        exact hwfq hw

/-! ### FCFS step lemmas -/

lemma enqueue_fcfs {qm : QueueManager} (h : qm.policy = Policy.fcfs) (p : Packet) :
    enqueue qm p = { qm with queue := qm.queue ++ [p] } := by
  obtain ⟨pol, qu, hp, fq, lf, w, wf, wv⟩ := qm
  dsimp only at h
  subst h
  rfl

lemma dequeue_fcfs_nil {qm : QueueManager} (h : qm.policy = Policy.fcfs)
    (hq : qm.queue = []) : dequeue qm = (none, qm) := by
  obtain ⟨pol, qu, hp, fq, lf, w, wf, wv⟩ := qm
  dsimp only at h hq
  subst h
  subst hq
  rfl

lemma dequeue_fcfs_cons {qm : QueueManager} (h : qm.policy = Policy.fcfs)
    {p : Packet} {t : List Packet} (hq : qm.queue = p :: t) :
    dequeue qm = (some p, { qm with queue := t }) := by
  obtain ⟨pol, qu, hp, fq, lf, w, wf, wv⟩ := qm
  dsimp only at h hq
  subst h
  subst hq
  rfl

lemma runOps_fcfs_aux (ops : List RouterOp) :
    ∀ (qu : List Packet) (hp : List (ℤ × ℚ × Packet)) (fq : List (ℤ × List Packet))
      (lf : Option ℤ) (w wf : List (ℤ × ℚ)) (wv : ℚ),
      qu ++ opsEnqList ops
        = (runOps ⟨Policy.fcfs, qu, hp, fq, lf, w, wf, wv⟩ ops).2
          ++ (runOps ⟨Policy.fcfs, qu, hp, fq, lf, w, wf, wv⟩ ops).1.queue := by
  induction ops with
  | nil =>
    intro qu hp fq lf w wf wv
    simp [runOps, opsEnqList]
  | cons op rest ih =>
    intro qu hp fq lf w wf wv
    cases op with
    | enq p =>
      show qu ++ (p :: opsEnqList rest) = _
      simp only [runOps]
      rw [show enqueue ⟨Policy.fcfs, qu, hp, fq, lf, w, wf, wv⟩ p
          = ⟨Policy.fcfs, qu ++ [p], hp, fq, lf, w, wf, wv⟩ from rfl]
      rw [List.append_cons]
      exact ih (qu ++ [p]) hp fq lf w wf wv
    | deq =>
      cases qu with
      | nil =>
        simp only [runOps, show dequeue ⟨Policy.fcfs, [], hp, fq, lf, w, wf, wv⟩
            = (none, ⟨Policy.fcfs, [], hp, fq, lf, w, wf, wv⟩) from rfl]
        exact ih [] hp fq lf w wf wv
      | cons p t =>
        simp only [runOps, show dequeue ⟨Policy.fcfs, p :: t, hp, fq, lf, w, wf, wv⟩
            = (some p, ⟨Policy.fcfs, t, hp, fq, lf, w, wf, wv⟩) from rfl]
        have := ih t hp fq lf w wf wv
        rw [show opsEnqList (RouterOp.deq :: rest) = opsEnqList rest from rfl]
        simp only [List.cons_append]
        rw [this]

lemma runOps_count {qm : QueueManager} (hpol : qm.policy ≠ Policy.wfq)
    (ops : List RouterOp) :
    (opsEnqList ops).length + resCount qm
      = (runOps qm ops).2.length + resCount (runOps qm ops).1 := by
  induction ops generalizing qm with
  | nil => simp [runOps, opsEnqList]
  | cons op rest ih =>
    cases op with
    | enq p =>
      have hpol' : (enqueue qm p).policy ≠ Policy.wfq := by
        rw [enqueue_policy]
        exact hpol
      have hres := resCount_enqueue qm p hpol
      have := ih hpol'
      simp only [runOps]
      rw [show opsEnqList (RouterOp.enq p :: rest) = p :: opsEnqList rest from rfl]
      simp only [List.length_cons]
      omega
    | deq =>
      rcases hdq : dequeue qm with ⟨o, qm'⟩
      have hpol' : qm'.policy ≠ Policy.wfq := by
        have := dequeue_policy qm
        rw [hdq] at this
        rw [show qm' = (o, qm').2 from rfl, this]
        exact hpol
      cases o with
      | none =>
        have heq := dequeue_pair_none hdq
        subst heq
        simp only [runOps, hdq]
        rw [show opsEnqList (RouterOp.deq :: rest) = opsEnqList rest from rfl]
        exact ih hpol'
      | some p =>
        have hres := dequeue_pair_some hdq
        have := ih hpol'
        simp only [runOps, hdq]
        rw [show opsEnqList (RouterOp.deq :: rest) = opsEnqList rest from rfl]
        simp only [List.length_cons]
        omega

/-! ### Claim theorems: loop-level -/

lemma loopMeasure_init (pol : Policy) (pkts : List Packet) :
    loopMeasure pkts (initLoopState pol) < 4 * pkts.length + 2 := by
  have h1 := idleFlag_le pkts 0 0
  have h2 := resCount_mk pol
  unfold loopMeasure initLoopState
  simp only
  omega

/-- C3: for every finite arrival list and every policy choice (`fcfs`,
`priority`, `rr`, `wfq`), with a nonzero configured output rate, the event
loop terminates: `runLoop` reaches its exit condition within the explicit
fuel `4 * n + 2`, so `simMain` returns a final state. -/
theorem event_loop_terminates (pol : Policy) (input : List Packet) (r : ℚ)
    (hr : r ≠ 0) : (simMain pol input r).isSome := by
  rw [simMain]
  exact runLoop_isSome _ _ _ _ (loopMeasure_init pol (sortPackets input))

theorem event_loop_terminates_witness :
    (1 : ℚ) ≠ 0 ∧ (simMain Policy.priority [pktA, pktB] 1).isSome :=
  ⟨by norm_num, event_loop_terminates Policy.priority [pktA, pktB] 1 (by norm_num)⟩

lemma sortPackets_length (input : List Packet) :
    (sortPackets input).length = input.length :=
  (List.perm_insertionSort arrLe input).length_eq

/-- C7: for every input packet list and every policy among `fcfs`,
`priority` and `rr`, with a nonzero output rate, the completed run emits
exactly one `SEND` event per input packet (and one `ENQUEUE` event per
input packet): packets sent equals packets parsed. -/
theorem run_send_conservation (pol : Policy)
    (hp : pol = Policy.fcfs ∨ pol = Policy.priority ∨ pol = Policy.rr)
    (input : List Packet) (r : ℚ) (hr : r ≠ 0) :
    ∃ t, simMain pol input r = some t ∧
      sendCount t.events = input.length ∧ enqCount t.events = input.length := by
  obtain ⟨t, ht⟩ := Option.isSome_iff_exists.mp (event_loop_terminates pol input r hr)
  refine ⟨t, ht, ?_⟩
  rw [simMain] at ht
  have hfin := runLoop_final _ _ _ ht (LoopInv_init pol (sortPackets input))
  have hw : pol ≠ Policy.wfq := by rcases hp with rfl | rfl | rfl <;> simp
  have hlen := sortPackets_length input
  constructor
  · rw [← hlen]
    exact hfin.2.1 hw
  · rw [← hlen]
    exact hfin.1

theorem run_send_conservation_witness :
    (Policy.rr = Policy.fcfs ∨ Policy.rr = Policy.priority ∨ Policy.rr = Policy.rr) ∧
      (10 : ℚ) ≠ 0 ∧
      ∃ t, simMain Policy.rr scenarioB 10 = some t ∧
        sendCount t.events = scenarioB.length ∧ enqCount t.events = scenarioB.length :=
  ⟨Or.inr (Or.inr rfl), by norm_num,
    run_send_conservation Policy.rr (Or.inr (Or.inr rfl)) scenarioB 10 (by norm_num)⟩

/-- C9 (implicit): when `wfq` is selected, `enqueue` stores nothing and
`dequeue` always returns empty, and for every input with a nonzero rate
the run terminates normally with one `ENQUEUE` event per packet and zero
`SEND` events — every packet silently dropped, no infinite stall and no
configuration-time rejection. -/
theorem wfq_silent_drop :
    (∀ (qm : QueueManager) (p : Packet), qm.policy = Policy.wfq →
        enqueue qm p = qm ∧ dequeue qm = (none, qm)) ∧
    ∀ (input : List Packet) (r : ℚ), r ≠ 0 →
      ∃ t, simMain Policy.wfq input r = some t ∧
        enqCount t.events = input.length ∧ sendCount t.events = 0 := by
  constructor
  · intro qm p h
    exact ⟨enqueue_wfq qm p h, dequeue_wfq h⟩
  · intro input r hr
    obtain ⟨t, ht⟩ :=
      Option.isSome_iff_exists.mp (event_loop_terminates Policy.wfq input r hr)
    refine ⟨t, ht, ?_⟩
    rw [simMain] at ht
    have hfin := runLoop_final _ _ _ ht (LoopInv_init Policy.wfq (sortPackets input))
    have hlen := sortPackets_length input
    exact ⟨by rw [← hlen]; exact hfin.1, hfin.2.2 rfl⟩

theorem wfq_silent_drop_witness :
    (enqueue (mkQueueManager Policy.wfq) pktA = mkQueueManager Policy.wfq ∧
      dequeue (mkQueueManager Policy.wfq) = (none, mkQueueManager Policy.wfq)) ∧
    ∃ t, simMain Policy.wfq [pktA, pktB] 10 = some t ∧
      enqCount t.events = ([pktA, pktB] : List Packet).length ∧ sendCount t.events = 0 :=
  ⟨wfq_silent_drop.1 (mkQueueManager Policy.wfq) pktA rfl,
    wfq_silent_drop.2 [pktA, pktB] 10 (by norm_num)⟩

/-! ### Claim theorems: queue-manager level -/

/-- C2 (corrected): the conservation invariant — packets ever enqueued
equal packets ever dequeued plus packets currently resident across all
per-policy stores — holds for every policy except `wfq` (whose `enqueue`
stores nothing, see the counterexample). -/
theorem conservation_invariant_amended (pol : Policy) (hpol : pol ≠ Policy.wfq)
    (ops : List RouterOp) :
    (opsEnqList ops).length
      = (runOps (mkQueueManager pol) ops).2.length
        + resCount (runOps (mkQueueManager pol) ops).1 := by
  have h := @runOps_count (mkQueueManager pol) hpol ops
  rw [resCount_mk] at h
  omega

theorem conservation_invariant_cex :
    ¬ ((opsEnqList [RouterOp.enq pktA]).length
        = (runOps (mkQueueManager Policy.wfq) [RouterOp.enq pktA]).2.length
          + resCount (runOps (mkQueueManager Policy.wfq) [RouterOp.enq pktA]).1) := by
  decide

theorem conservation_invariant_amended_witness :
    Policy.fcfs ≠ Policy.wfq ∧
      (opsEnqList [RouterOp.enq pktA, RouterOp.deq]).length
        = (runOps (mkQueueManager Policy.fcfs) [RouterOp.enq pktA, RouterOp.deq]).2.length
          + resCount (runOps (mkQueueManager Policy.fcfs)
              [RouterOp.enq pktA, RouterOp.deq]).1 :=
  ⟨by decide,
    conservation_invariant_amended Policy.fcfs (by decide) [RouterOp.enq pktA, RouterOp.deq]⟩

/-- C5: under FCFS, for every interleaved sequence of enqueue/dequeue
calls, the packets passed to `enqueue` are exactly the dequeued packets
followed by the still-queued packets — so the dequeued sequence is a
prefix of the enqueued sequence, and equals it on a completed (drained)
run. -/
theorem fcfs_order_preservation (ops : List RouterOp) :
    opsEnqList ops
        = (runOps (mkQueueManager Policy.fcfs) ops).2
          ++ (runOps (mkQueueManager Policy.fcfs) ops).1.queue
      ∧ ((runOps (mkQueueManager Policy.fcfs) ops).1.queue = [] →
          opsEnqList ops = (runOps (mkQueueManager Policy.fcfs) ops).2) := by
  have hmk : mkQueueManager Policy.fcfs
      = ⟨Policy.fcfs, [], [], [], none, [], [], 0⟩ := rfl
  rw [hmk]
  have h := runOps_fcfs_aux ops [] [] [] none [] [] 0
  rw [List.nil_append] at h
  constructor
  · exact h
  · intro hq
    rw [hq, List.append_nil] at h
    exact h

theorem fcfs_order_preservation_witness :
    opsEnqList [RouterOp.enq pktA, RouterOp.enq pktB, RouterOp.deq, RouterOp.deq]
      = (runOps (mkQueueManager Policy.fcfs)
          [RouterOp.enq pktA, RouterOp.enq pktB, RouterOp.deq, RouterOp.deq]).2 :=
  (fcfs_order_preservation
    [RouterOp.enq pktA, RouterOp.enq pktB, RouterOp.deq, RouterOp.deq]).2 (by decide)

/-! ### Priority policy: reachable-state invariant and C4 -/

lemma nth_of_mem {α : Type} [Inhabited α] {l : List α} {a : α} (h : a ∈ l) :
    ∃ i, i < l.length ∧ nth l i = a := by
  induction l with
  | nil => simp at h
  | cons b t ih =>
    rcases List.mem_cons.mp h with rfl | hm
    · exact ⟨0, by simp, rfl⟩
    · obtain ⟨i, hi, hn⟩ := ih hm
      exact ⟨i + 1, by simpa using hi, hn⟩

lemma enqueue_priority {qm : QueueManager} (h : qm.policy = Policy.priority) (p : Packet) :
    enqueue qm p
      = { qm with heap := heappush entryLt qm.heap (p.priority, p.arrival_time, p) } := by
  obtain ⟨pol, qu, hp, fq, lf, w, wf, wv⟩ := qm
  dsimp only at h
  subst h
  rfl

lemma dequeue_priority_none {qm : QueueManager} (h : qm.policy = Policy.priority)
    (hpop : heappop entryLt qm.heap = none) : dequeue qm = (none, qm) := by
  obtain ⟨pol, qu, hp, fq, lf, w, wf, wv⟩ := qm
  dsimp only at h hpop
  subst h
  simp [dequeue, hpop]

lemma dequeue_priority_some {qm : QueueManager} (h : qm.policy = Policy.priority)
    {e : ℤ × ℚ × Packet} {h' : List (ℤ × ℚ × Packet)}
    (hpop : heappop entryLt qm.heap = some (e, h')) :
    dequeue qm = (some e.2.2, { qm with heap := h' }) := by
  obtain ⟨pol, qu, hp, fq, lf, w, wf, wv⟩ := qm
  dsimp only at h hpop
  subst h
  simp [dequeue, hpop]

lemma reach_priority_inv {qm : QueueManager} (h : Reach Policy.priority qm) :
    qm.policy = Policy.priority ∧ qm.queue = [] ∧ qm.flow_queues = [] ∧
      IsHeap entryLt qm.heap ∧ ∀ e ∈ qm.heap, WFEntry e := by
  induction h with
  | init =>
    refine ⟨rfl, rfl, rfl, ?_, by simp [mkQueueManager]⟩
    intro i j hedge hjlen
    simp [mkQueueManager] at hjlen
  | enq p h ih =>
    obtain ⟨hpol, hqu, hfq, hheap, hwf⟩ := ih
    rename_i qm0
    rw [enqueue_priority hpol p]
    refine ⟨hpol, hqu, hfq,
      heappush_isHeap entryLt_asym entryLt_le_trans hheap _, ?_⟩
    intro e he
    have hperm := @heappush_perm _ _ entryLt qm0.heap (p.priority, p.arrival_time, p)
    rcases List.mem_cons.mp (hperm.mem_iff.mp he) with rfl | hm
    · exact ⟨rfl, rfl⟩
    · exact hwf e hm
  | deq h ih =>
    obtain ⟨hpol, hqu, hfq, hheap, hwf⟩ := ih
    rename_i qm0
    rcases hpop : heappop entryLt qm0.heap with _ | ⟨e, h'⟩
    · rw [dequeue_priority_none hpol hpop]
      exact ⟨hpol, hqu, hfq, hheap, hwf⟩
    · have hne : qm0.heap ≠ [] := by
        intro hnil
        rw [hnil] at hpop
        simp [heappop] at hpop
      obtain ⟨h'', hpop2, hms, hlen2, hheap2⟩ :=
        heappop_big entryLt_asym entryLt_le_trans qm0.heap hne hheap
      rw [hpop] at hpop2
      have hpair : (e, h') = (nth qm0.heap 0, h'') := Option.some_injective _ hpop2
      have hh : h' = h'' := congrArg Prod.snd hpair
      rw [dequeue_priority_some hpol hpop]
      refine ⟨hpol, hqu, hfq, hh ▸ hheap2, ?_⟩
      intro e' he'
      have h1 : e' ∈ (↑h'' : Multiset (ℤ × ℚ × Packet)) :=
        Multiset.mem_coe.mpr (hh ▸ he')
      have h2 : e' ∈ (↑qm0.heap : Multiset (ℤ × ℚ × Packet)) := by
        rw [hms]
        exact Multiset.mem_add.mpr (Or.inl h1)
      exact hwf _ (Multiset.mem_coe.mp h2)

/-- C4: under the PRIORITY policy, in any reachable manager state with at
least one resident packet, `dequeue` returns a packet minimal among all
resident packets under (priority ascending, then arrival time ascending),
and removes exactly that packet (the residents before are a permutation
of the returned packet consed onto the residents after). -/
theorem priority_dequeue_min (qm : QueueManager) (hr : Reach Policy.priority qm)
    (hne : resCount qm ≠ 0) :
    ∃ p qm', dequeue qm = (some p, qm') ∧
      (∀ q ∈ resPackets qm, p.priority < q.priority ∨
        (p.priority = q.priority ∧ p.arrival_time ≤ q.arrival_time)) ∧
      (resPackets qm).Perm (p :: resPackets qm') := by
  obtain ⟨hpol, hqu, hfq, hheap, hwf⟩ := reach_priority_inv hr
  have hneh : qm.heap ≠ [] := by
    intro hnil
    exact hne (by simp [resCount, resPackets, hqu, hfq, hnil, flowPackets])
  have hpos : 0 < qm.heap.length := List.length_pos.mpr hneh
  obtain ⟨h', hpop, hms, hlen, hheap'⟩ :=
    heappop_big entryLt_asym entryLt_le_trans qm.heap hneh hheap
  refine ⟨(nth qm.heap 0).2.2, { qm with heap := h' },
    dequeue_priority_some hpol hpop, ?_, ?_⟩
  · intro q hq
    have hq' : q ∈ (qm.heap.map fun e => e.2.2) := by
      simpa [resPackets, hqu, hfq, flowPackets] using hq
    obtain ⟨e', he'mem, rfl⟩ := List.mem_map.mp hq'
    obtain ⟨j, hj, hnj⟩ := nth_of_mem he'mem
    have hmin := isHeap_root_min entryLt_asym entryLt_le_trans hheap j hj
    rw [hnj] at hmin
    exact entry_le_pktLe (hwf _ (nth_mem _ hpos)) (hwf _ he'mem) hmin
  · have hperm : qm.heap.Perm (nth qm.heap 0 :: h') := by
      rw [← Multiset.coe_eq_coe, hms, add_comm, Multiset.singleton_add, Multiset.cons_coe]
    have hmap := hperm.map fun e => e.2.2
    rw [List.map_cons] at hmap
    have hres1 : resPackets qm = qm.heap.map fun e => e.2.2 := by
      simp [resPackets, hqu, hfq, flowPackets]
    have hres2 : resPackets { qm with heap := h' } = h'.map fun e => e.2.2 := by
      simp [resPackets, hqu, hfq, flowPackets]
    rw [hres1, hres2]
    exact hmap

theorem priority_dequeue_min_witness :
    resCount (enqueue (enqueue (mkQueueManager Policy.priority) pktA) pktB) ≠ 0 ∧
    ∃ p qm',
      dequeue (enqueue (enqueue (mkQueueManager Policy.priority) pktA) pktB)
          = (some p, qm') ∧
      (∀ q ∈ resPackets (enqueue (enqueue (mkQueueManager Policy.priority) pktA) pktB),
        p.priority < q.priority ∨
          (p.priority = q.priority ∧ p.arrival_time ≤ q.arrival_time)) ∧
      (resPackets (enqueue (enqueue (mkQueueManager Policy.priority) pktA) pktB)).Perm
        (p :: resPackets qm') :=
  ⟨by decide,
    priority_dequeue_min _ (Reach.enq pktB (Reach.enq pktA Reach.init)) (by decide)⟩

/-! ### Scenario C: the event log only ever grows, and its first `SEND` -/

lemma find?_append_some {α} {p : α → Bool} {l₁ : List α} {a : α}
    (h : l₁.find? p = some a) (l₂ : List α) : (l₁ ++ l₂).find? p = some a := by
  rw [List.find?_append, h]
  rfl

lemma firstSentPkt_append {evs : List Event} {p : Packet}
    (h : firstSentPkt evs = some p) (tail : List Event) :
    firstSentPkt (evs ++ tail) = some p := by
  rw [firstSentPkt] at h ⊢
  rw [Option.map_eq_some'] at h
  obtain ⟨e, he, hp⟩ := h
  rw [find?_append_some he]
  simpa using hp

lemma sendStep_events_mono {pkts : List Packet} {iv : ℚ} {s : LoopState} :
    (∃ s', sendStep pkts iv s = Sum.inl s' ∧ ∃ tl, s'.events = s.events ++ tl) ∨
    (∃ t, sendStep pkts iv s = Sum.inr t ∧ ∃ tl, t.events = s.events ++ tl) := by
  rw [sendStep]
  rcases hdq : dequeue s.qm with ⟨o, qm'⟩
  cases o with
  | some p => exact Or.inl ⟨_, rfl, _, rfl⟩
  | none =>
    cases hg : pkts[s.i]? with
    | some pkt => exact Or.inl ⟨_, rfl, [], by simp⟩
    | none => exact Or.inr ⟨_, rfl, [], by simp⟩

lemma loopStep_events_mono {pkts : List Packet} {iv : ℚ} {s : LoopState} :
    (∃ s', loopStep pkts iv s = Sum.inl s' ∧ ∃ tl, s'.events = s.events ++ tl) ∨
    (∃ t, loopStep pkts iv s = Sum.inr t ∧ ∃ tl, t.events = s.events ++ tl) := by
  by_cases hcond : s.i < pkts.length ∨ queues_empty s.qm = false
  · cases hg : pkts[s.i]? with
    | some pkt =>
      by_cases harr : pkt.arrival_time ≤ s.next_send_time
      · refine Or.inl ⟨⟨s.i + 1, pkt.arrival_time, s.next_send_time, enqueue s.qm pkt,
          s.events ++ [Event.enqueueEv pkt.arrival_time pkt]⟩, ?_,
          [Event.enqueueEv pkt.arrival_time pkt], rfl⟩
        simp only [loopStep, if_pos hcond, hg, if_pos harr]
      · have heq : loopStep pkts iv s = sendStep pkts iv s := by
          simp only [loopStep, if_pos hcond, hg, if_neg harr]
        rcases @sendStep_events_mono pkts iv s with ⟨s', h1, tl, h2⟩ | ⟨t, h1, tl, h2⟩
        · exact Or.inl ⟨s', heq.trans h1, tl, h2⟩
        · exact Or.inr ⟨t, heq.trans h1, tl, h2⟩
    | none =>
      have heq : loopStep pkts iv s = sendStep pkts iv s := by
        simp only [loopStep, if_pos hcond, hg]
      rcases @sendStep_events_mono pkts iv s with ⟨s', h1, tl, h2⟩ | ⟨t, h1, tl, h2⟩
      · exact Or.inl ⟨s', heq.trans h1, tl, h2⟩
      · exact Or.inr ⟨t, heq.trans h1, tl, h2⟩
  · refine Or.inr ⟨s, ?_, [], by simp⟩
    simp only [loopStep, if_neg hcond]

lemma runLoop_events_mono {pkts : List Packet} {iv : ℚ} :
    ∀ (fuel : ℕ) (s t : LoopState), runLoop pkts iv fuel s = some t →
      ∃ tl, t.events = s.events ++ tl := by
  intro fuel
  induction fuel with
  | zero => intro s t h; simp [runLoop] at h
  | succ f ih =>
    intro s t h
    rw [runLoop] at h
    rcases @loopStep_events_mono pkts iv s with ⟨s', hstep, tl, htl⟩ | ⟨u, hstep, tl, htl⟩
    · rw [hstep] at h
      obtain ⟨tl2, htl2⟩ := ih s' t h
      exact ⟨tl ++ tl2, by rw [htl2, htl, List.append_assoc]⟩
    · rw [hstep] at h
      cases h
      exact ⟨tl, htl⟩

lemma scenario_c_run (iv : ℚ) :
    firstSendOfRun (runLoop [pktA, pktB] iv 10 (initLoopState Policy.priority))
      = some pktA := by
  have h1 : runLoop [pktA, pktB] iv 10 (initLoopState Policy.priority)
      = runLoop [pktA, pktB] iv 8
          (⟨1, 0, 0 + iv, mkQueueManager Policy.priority,
            [Event.enqueueEv 0 pktA, Event.sendEv 0 pktA]⟩ : LoopState) := rfl
  rw [h1]
  have hm : loopMeasure [pktA, pktB]
      (⟨1, 0, 0 + iv, mkQueueManager Policy.priority,
        [Event.enqueueEv 0 pktA, Event.sendEv 0 pktA]⟩ : LoopState) < 8 := by
    have hidle := idleFlag_le [pktA, pktB] 1 (0 + iv)
    rw [loopMeasure]
    simp only [resCount_mk]
    simp only [List.length_cons, List.length_nil]
    omega
  obtain ⟨t, ht⟩ := Option.isSome_iff_exists.mp
    (runLoop_isSome [pktA, pktB] iv 8 _ hm)
  rw [ht]
  obtain ⟨tl, htl⟩ := runLoop_events_mono 8 _ t ht
  rw [firstSendOfRun, htl]
  have hfs : firstSentPkt [Event.enqueueEv 0 pktA, Event.sendEv 0 pktA]
      = some pktA := rfl
  exact firstSentPkt_append hfs tl

/-- C1 counterexample: under the PRIORITY policy with output rate 1
packet/s (a 1000 ms inter-send interval, so as slow as the scenario could
ask for), the first `SEND` of the run on packets A and B is packet A, not
packet B: `next_send_time` starts at `0.0`, so the loop attempts a send at
`t=0` — right after admitting A and before B (arriving at `t=1`) can be
admitted — and that send dequeues A.  The claim's premise that some rate
queues both packets before the first send is unachievable. -/
theorem scenario_c_first_send_cex :
    firstSendOfRun (simMain Policy.priority [pktA, pktB] 1) = some pktA ∧
      pktA ≠ pktB := by
  constructor
  · with_unfolding_all rfl
  · intro h
    exact absurd (congrArg Packet.priority h) (by decide)

/-- C1 (amended): under the PRIORITY policy, for every configured output
rate, the first `SEND` event of the run on packet A (priority 2, arrival
`t=0`) and packet B (priority 0, arrival `t=1` ms) is packet A — never
packet B, contrary to the claim: the first send attempt happens at
`next_send_time = 0.0`, when only A has arrived. -/
theorem scenario_c_first_send (r : ℚ) (hr : 0 < r) :
    firstSendOfRun (simMain Policy.priority [pktA, pktB] r) = some pktA ∧
      pktA ≠ pktB := by
  refine ⟨?_, fun h => absurd (congrArg Packet.priority h) (by decide)⟩
  have hrun : simMain Policy.priority [pktA, pktB] r
      = runLoop [pktA, pktB] (1000 / r) 10 (initLoopState Policy.priority) := rfl
  rw [hrun]
  exact scenario_c_run (1000 / r)

theorem scenario_c_first_send_witness :
    0 < (2 : ℚ) ∧
      (firstSendOfRun (simMain Policy.priority [pktA, pktB] 2) = some pktA ∧
        pktA ≠ pktB) :=
  ⟨by norm_num, scenario_c_first_send 2 (by norm_num)⟩

/-! ### Round-robin: the reachable-state invariant and the sorted-scan
selection rule -/

lemma reach_rr_inv {qm : QueueManager} (h : Reach Policy.rr qm) :
    qm.policy = Policy.rr ∧ qm.queue = [] ∧ qm.heap = [] ∧ RRInv qm.flow_queues := by
  induction h with
  | init => exact ⟨rfl, rfl, rfl, by simp [mkQueueManager, RRInv, flowKeys]⟩
  | enq p h ih =>
    obtain ⟨hpol, hqu, hhp, hinv⟩ := ih
    have hok := stores_enqueue hpol ⟨hqu, hhp, hinv⟩ p
    exact ⟨(enqueue_policy _ p).trans hpol, hok.1, hok.2.1, hok.2.2⟩
  | deq h ih =>
    obtain ⟨hpol, hqu, hhp, hinv⟩ := ih
    have hok := stores_dequeue hpol ⟨hqu, hhp, hinv⟩
    exact ⟨(dequeue_policy _).trans hpol, hok.1, hok.2.1, hok.2.2⟩

lemma listIndex_lt_length {x : ℤ} : ∀ {ids : List ℤ}, x ∈ ids →
    listIndex x ids < ids.length := by
  intro ids
  induction ids with
  | nil => intro h; simp at h
  | cons a t ih =>
    intro h
    rw [listIndex]
    split
    · simp
    · rename_i hne
      rcases List.mem_cons.mp h with rfl | hm
      · exact absurd rfl hne
      · have := ih hm
        simp only [List.length_cons]
        omega

lemma nth_listIndex {x : ℤ} : ∀ {ids : List ℤ}, x ∈ ids →
    nth ids (listIndex x ids) = x := by
  intro ids
  induction ids with
  | nil => intro h; simp at h
  | cons a t ih =>
    intro h
    rw [listIndex]
    split
    · rename_i he
      rw [nth_cons_zero]
      exact he
    · rename_i hne
      rw [nth_cons_succ]
      rcases List.mem_cons.mp h with rfl | hm
      · exact absurd rfl hne
      · exact ih hm

lemma nth_eq_get {α : Type} [Inhabited α] (l : List α) {i : ℕ} (h : i < l.length) :
    nth l i = l.get ⟨i, h⟩ := by
  rw [nth, List.getD_eq_getElem _ _ h]
  simp

lemma sorted_nth_le {ids : List ℤ} (hs : ids.Sorted intLe) {i j : ℕ}
    (hij : i ≤ j) (hj : j < ids.length) : nth ids i ≤ nth ids j := by
  rcases Nat.eq_or_lt_of_le hij with rfl | hlt
  · exact le_refl _
  · have hi : i < ids.length := lt_trans hlt hj
    rw [nth_eq_get ids hi, nth_eq_get ids hj]
    exact List.pairwise_iff_get.mp hs ⟨i, hi⟩ ⟨j, hj⟩ hlt

lemma sorted_nth_lt {ids : List ℤ} (hs : ids.Sorted intLe) (hnd : ids.Nodup) {i j : ℕ}
    (hij : i < j) (hj : j < ids.length) : nth ids i < nth ids j := by
  have hle := sorted_nth_le hs (le_of_lt hij) hj
  have hi : i < ids.length := lt_trans hij hj
  refine lt_of_le_of_ne hle ?_
  rw [nth_eq_get ids hi, nth_eq_get ids hj]
  intro he
  have h2 := List.nodup_iff_injective_get.mp hnd he
  have : i = j := by simpa using congrArg Fin.val h2
  omega

instance : Std.Antisymm (fun a b : ℤ => a ≤ b) :=
  ⟨fun h1 h2 => le_antisymm h1 h2⟩

lemma int_min?_eq_some_iff {xs : List ℤ} {a : ℤ} :
    xs.min? = some a ↔ a ∈ xs ∧ ∀ b, b ∈ xs → a ≤ b :=
  List.min?_eq_some_iff (fun x => le_refl x) (fun x y => min_choice x y)
    (fun x y z => le_min_iff)

lemma sorted_head_min {ids l : List ℤ} (hs : ids.Sorted intLe)
    (hperm : ids.Perm l) (hne : ids ≠ []) : l.min? = some (nth ids 0) := by
  rw [int_min?_eq_some_iff]
  have hpos : 0 < ids.length := List.length_pos.mpr hne
  constructor
  · exact hperm.mem_iff.mp (nth_mem _ hpos)
  · intro b hb
    obtain ⟨k, hk, hnk⟩ := nth_of_mem (hperm.mem_iff.mpr hb)
    rw [← hnk]
    exact sorted_nth_le hs (Nat.zero_le k) hk

lemma sorted_next_min {ids l : List ℤ} (hs : ids.Sorted intLe) (hnd : ids.Nodup)
    (hperm : ids.Perm l) {k : ℕ} (hk1 : k + 1 < ids.length) :
    (l.filter fun x => decide (nth ids k < x)).min? = some (nth ids (k + 1)) := by
  have hkl : k < ids.length := Nat.lt_of_succ_lt hk1
  rw [int_min?_eq_some_iff]
  constructor
  · rw [List.mem_filter]
    refine ⟨hperm.mem_iff.mp (nth_mem _ hk1), ?_⟩
    simp [sorted_nth_lt hs hnd (Nat.lt_succ_self k) hk1]
  · intro b hb
    rw [List.mem_filter] at hb
    obtain ⟨hbmem, hblt⟩ := hb
    have hklt : nth ids k < b := of_decide_eq_true hblt
    obtain ⟨m, hm, hnm⟩ := nth_of_mem (hperm.mem_iff.mpr hbmem)
    have hmk : k < m := by
      by_contra hc
      push_neg at hc
      have hle := sorted_nth_le hs hc hkl
      rw [hnm] at hle
      exact absurd hklt (not_lt.mpr hle)
    rw [← hnm]
    exact sorted_nth_le hs hmk hm

lemma sorted_last_filter_nil {ids l : List ℤ} (hs : ids.Sorted intLe)
    (hperm : ids.Perm l) {k : ℕ} (hk : k + 1 = ids.length) :
    (l.filter fun x => decide (nth ids k < x)) = [] := by
  rw [List.filter_eq_nil_iff]
  intro b hb
  obtain ⟨m, hm, hnm⟩ := nth_of_mem (hperm.mem_iff.mpr hb)
  have hle : b ≤ nth ids k := by
    rw [← hnm]
    exact sorted_nth_le hs (by omega) (by omega)
  simp [not_lt.mpr hle]

lemma rrStart_lt {ids : List ℤ} (h : 0 < ids.length) (last : Option ℤ) :
    rrStart ids last < ids.length := by
  cases last with
  | none => simpa [rrStart] using h
  | some lf =>
    by_cases hmem : lf ∈ ids
    · simp only [rrStart, if_pos hmem]
      exact Nat.mod_lt _ h
    · simp only [rrStart, if_neg hmem]
      exact h

lemma find?_range_zero {p : ℕ → Bool} {n : ℕ} (hn : 0 < n) (hp : p 0 = true) :
    (List.range n).find? p = some 0 := by
  cases n with
  | zero => omega
  | succ m =>
    rw [List.range_succ_eq_map]
    exact List.find?_cons_of_pos _ hp

lemma rrFind_all_nonempty {fq : List (ℤ × List Packet)} (hinv : RRInv fq)
    {start : ℕ} (hstart : start < (sortedKeys fq).length) :
    rrFind fq (sortedKeys fq) start = some (nth (sortedKeys fq) start) := by
  have hmem : nth (sortedKeys fq) start ∈ flowKeys fq :=
    (sortedKeys_perm fq).mem_iff.mp (nth_mem _ hstart)
  obtain ⟨q, hget, hqmem⟩ := flowGet_of_mem_keys hmem
  have hq : q.isEmpty = false := by
    have := hinv.1 _ hqmem
    simpa [List.isEmpty_iff] using this
  obtain ⟨m, hm⟩ : ∃ m, (sortedKeys fq).length = m + 1 :=
    ⟨(sortedKeys fq).length - 1, by omega⟩
  have hmod : (start + 0) % (sortedKeys fq).length = start := by
    rw [Nat.add_zero]
    exact Nat.mod_eq_of_lt hstart
  rw [rrFind, hm, List.range_succ_eq_map, List.find?_cons_of_pos]
  · rw [Option.map_some']
    rw [← hm, hmod]
  · rw [← hm, hmod, hget]
    simpa using hq

lemma specRRFlow_eq {qm : QueueManager} (hinv : RRInv qm.flow_queues)
    (hne : qm.flow_queues ≠ []) :
    specRRFlow qm = some (nth (sortedKeys qm.flow_queues)
        (rrStart (sortedKeys qm.flow_queues) qm.last_flow)) := by
  have hfilter : (qm.flow_queues.filter fun pr => !pr.2.isEmpty) = qm.flow_queues :=
    List.filter_eq_self.mpr fun pr hpr => by
      simpa [List.isEmpty_iff] using hinv.1 pr hpr
  have hperm := sortedKeys_perm qm.flow_queues
  have hsort := sortedKeys_sorted qm.flow_queues
  have hnd : (sortedKeys qm.flow_queues).Nodup := hperm.nodup_iff.mpr hinv.2
  have hidsne : sortedKeys qm.flow_queues ≠ [] := by
    intro h0
    rw [h0] at hperm
    have hkeysnil : flowKeys qm.flow_queues = [] := hperm.symm.eq_nil
    exact hne (List.map_eq_nil.mp hkeysnil)
  have hkeys : (qm.flow_queues.map fun pr => pr.1) = flowKeys qm.flow_queues := rfl
  simp only [specRRFlow, hfilter, hkeys]
  rcases hlf : qm.last_flow with _ | lf
  · simp only [rrStart]
    exact sorted_head_min hsort hperm hidsne
  · simp only []
    by_cases hmem : lf ∈ flowKeys qm.flow_queues
    · rw [if_pos hmem]
      have hmem' : lf ∈ sortedKeys qm.flow_queues := hperm.mem_iff.mpr hmem
      simp only [rrStart, if_pos hmem']
      have hklen : listIndex lf (sortedKeys qm.flow_queues)
          < (sortedKeys qm.flow_queues).length := listIndex_lt_length hmem'
      have hnthk : nth (sortedKeys qm.flow_queues)
          (listIndex lf (sortedKeys qm.flow_queues)) = lf := nth_listIndex hmem'
      by_cases hlast : listIndex lf (sortedKeys qm.flow_queues) + 1
          < (sortedKeys qm.flow_queues).length
      · rw [Nat.mod_eq_of_lt hlast]
        have hminn := sorted_next_min hsort hnd hperm hlast
        rw [hnthk] at hminn
        rw [hminn]
      · have hkeq : listIndex lf (sortedKeys qm.flow_queues) + 1
            = (sortedKeys qm.flow_queues).length := by omega
        have hmod : (listIndex lf (sortedKeys qm.flow_queues) + 1)
            % (sortedKeys qm.flow_queues).length = 0 := by
          rw [hkeq]
          exact Nat.mod_self _
        rw [hmod]
        have hfil := sorted_last_filter_nil hsort hperm hkeq
        rw [hnthk] at hfil
        rw [hfil, List.min?_nil]
        exact sorted_head_min hsort hperm hidsne
    · rw [if_neg hmem]
      have hmem' : lf ∉ sortedKeys qm.flow_queues :=
        fun hc => hmem (hperm.mem_iff.mp hc)
      simp only [rrStart, if_neg hmem']
      exact sorted_head_min hsort hperm hidsne

lemma rrPop_fst {fq : List (ℤ × List Packet)} {fid : ℤ} {p : Packet} {rest : List Packet}
    (hget : flowGet fq fid = some (p :: rest)) : (rrPop fq fid).1 = some p := by
  induction fq with
  | nil => simp [flowGet] at hget
  | cons pr t ih =>
    obtain ⟨f, q⟩ := pr
    rw [flowGet] at hget
    by_cases hf : f = fid
    · rw [if_pos hf] at hget
      have hq : q = p :: rest := Option.some_injective _ hget
      subst hq
      simp only [rrPop, if_pos hf]
    · rw [if_neg hf] at hget
      simp only [rrPop, if_neg hf]
      exact ih hget

lemma rrPop_snd_of_get {fq : List (ℤ × List Packet)} {fid : ℤ} {p : Packet}
    {rest : List Packet} (hget : flowGet fq fid = some (p :: rest)) :
    ∃ fq', rrPop fq fid = (some p, fq') := by
  rcases hpop : rrPop fq fid with ⟨o, fq'⟩
  have h1 := rrPop_fst hget
  rw [hpop] at h1
  have ho : o = some p := h1
  subst ho
  exact ⟨fq', rfl⟩

lemma dequeue_rr_eq {qm : QueueManager} (hpol : qm.policy = Policy.rr)
    (hany : flowAny qm.flow_queues = true) {fid : ℤ}
    (hfind : rrFind qm.flow_queues (sortedKeys qm.flow_queues)
        (rrStart (sortedKeys qm.flow_queues) qm.last_flow) = some fid)
    {p : Packet} {rest : List Packet}
    (hget : flowGet qm.flow_queues fid = some (p :: rest)) :
    (dequeue qm).1 = some p ∧ (dequeue qm).2.last_flow = some fid := by
  obtain ⟨fq', hpop⟩ := rrPop_snd_of_get hget
  obtain ⟨pol, qu, hp, fq, lf, w, wf, wv⟩ := qm
  dsimp only at hpol hany hfind hget hpop ⊢
  subst hpol
  have hanyne : ¬(flowAny fq = false) := by simp [hany]
  simp only [dequeue, if_neg hanyne, hfind, hpop]
  exact ⟨trivial, trivial⟩

lemma dequeue_rr_nil {qm : QueueManager} (hpol : qm.policy = Policy.rr)
    (hfq : qm.flow_queues = []) : (dequeue qm).1 = none := by
  obtain ⟨pol, qu, hp, fq, lf, w, wf, wv⟩ := qm
  dsimp only at hpol hfq
  subst hpol
  subst hfq
  rfl

lemma rr_resCount_flow {qm : QueueManager} (hqu : qm.queue = []) (hhp : qm.heap = []) :
    resCount qm = (flowPackets qm.flow_queues).length := by
  simp [resCount, resPackets, hqu, hhp]

lemma rr_dequeue_spec {qm : QueueManager} (hR : Reach Policy.rr qm)
    (hres : resCount qm ≠ 0) :
    ∃ fid p rest, specRRFlow qm = some fid ∧
      flowGet qm.flow_queues fid = some (p :: rest) ∧
      (dequeue qm).1 = some p ∧ (dequeue qm).2.last_flow = some fid := by
  obtain ⟨hpol, hqu, hhp, hinv⟩ := reach_rr_inv hR
  have hfqne : qm.flow_queues ≠ [] := by
    intro hnil
    rw [rr_resCount_flow hqu hhp, hnil] at hres
    exact hres rfl
  have hlen : 0 < (sortedKeys qm.flow_queues).length := by
    rw [(sortedKeys_perm _).length_eq]
    have : 0 < qm.flow_queues.length := List.length_pos.mpr hfqne
    simpa [flowKeys] using this
  have hstart := rrStart_lt hlen qm.last_flow
  have hfind := rrFind_all_nonempty hinv hstart
  have hspec := specRRFlow_eq hinv hfqne
  have hmem : nth (sortedKeys qm.flow_queues)
      (rrStart (sortedKeys qm.flow_queues) qm.last_flow) ∈ flowKeys qm.flow_queues :=
    (sortedKeys_perm _).mem_iff.mp (nth_mem _ hstart)
  obtain ⟨q, hget, hqmem⟩ := flowGet_of_mem_keys hmem
  have hqne : q ≠ [] := hinv.1 _ hqmem
  obtain ⟨p, rest, rfl⟩ : ∃ p rest, q = p :: rest := by
    cases q with
    | nil => exact absurd rfl hqne
    | cons a b => exact ⟨a, b, rfl⟩
  have hany : flowAny qm.flow_queues = true := by
    cases hfa : flowAny qm.flow_queues with
    | true => rfl
    | false => exact absurd (flowAny_false_nil hfa hinv.1) hfqne
  obtain ⟨h1, h2⟩ := dequeue_rr_eq hpol hany hfind hget
  exact ⟨_, p, rest, hspec, hget, h1, h2⟩

/-- C6: under the ROUND_ROBIN policy, in any reachable manager state with
at least one resident packet, `dequeue` pops the head packet of the flow
selected by the spec's rule — the non-empty flow id immediately following
the last-served id in ascending order with wraparound, or the smallest
non-empty id when the last-served id is absent (`specRRFlow`, modelled
from the claim's words) — and records that flow as last served; and on
Scenario B (flows 1 and 2, two packets each at `t=0`, rate 10/s) the run
sends flows 1, 2, 1, 2. -/
theorem rr_dequeue_selection :
    (∀ qm : QueueManager, Reach Policy.rr qm → resCount qm ≠ 0 →
      ∃ fid p rest, specRRFlow qm = some fid ∧
        flowGet qm.flow_queues fid = some (p :: rest) ∧
        (dequeue qm).1 = some p ∧ (dequeue qm).2.last_flow = some fid) ∧
    sentFlowsOfRun (simMain Policy.rr scenarioB 10) = [1, 2, 1, 2] :=
  ⟨fun _ hR hres => rr_dequeue_spec hR hres, by with_unfolding_all rfl⟩

theorem rr_dequeue_selection_witness :
    Reach Policy.rr (enqueue (mkQueueManager Policy.rr) pktA) ∧
    resCount (enqueue (mkQueueManager Policy.rr) pktA) ≠ 0 ∧
    (∃ fid p rest,
      specRRFlow (enqueue (mkQueueManager Policy.rr) pktA) = some fid ∧
      flowGet (enqueue (mkQueueManager Policy.rr) pktA).flow_queues fid
          = some (p :: rest) ∧
      (dequeue (enqueue (mkQueueManager Policy.rr) pktA)).1 = some p ∧
      (dequeue (enqueue (mkQueueManager Policy.rr) pktA)).2.last_flow = some fid) :=
  ⟨Reach.enq pktA Reach.init, by decide,
    rr_dequeue_selection.1 _ (Reach.enq pktA Reach.init) (by decide)⟩

/-- C10: under the ROUND_ROBIN policy, in every reachable manager state
each per-flow queue present in the flow-queues mapping is non-empty, and
`dequeue` returns empty exactly when no packet is resident. -/
theorem rr_flow_queues_nonempty :
    ∀ qm : QueueManager, Reach Policy.rr qm →
      (∀ pr ∈ qm.flow_queues, pr.2 ≠ ([] : List Packet)) ∧
      ((dequeue qm).1 = none ↔ resCount qm = 0) := by
  intro qm hR
  obtain ⟨hpol, hqu, hhp, hinv⟩ := reach_rr_inv hR
  refine ⟨hinv.1, ?_, ?_⟩
  · intro hnone
    exact dequeue_none_res hpol ⟨hqu, hhp, hinv⟩ hnone
  · intro hzero
    have hfq : qm.flow_queues = [] := by
      cases hfq : qm.flow_queues with
      | nil => rfl
      | cons pr t =>
        exfalso
        have hne := hinv.1 pr (by rw [hfq]; exact List.mem_cons_self _ _)
        rw [rr_resCount_flow hqu hhp, hfq] at hzero
        rw [flowPackets_cons] at hzero
        simp only [List.length_append, Nat.add_eq_zero, List.length_eq_zero] at hzero
        exact hne hzero.1
    exact dequeue_rr_nil hpol hfq

theorem rr_flow_queues_nonempty_witness :
    Reach Policy.rr (enqueue (mkQueueManager Policy.rr) pktB) ∧
    ((∀ pr ∈ (enqueue (mkQueueManager Policy.rr) pktB).flow_queues,
        pr.2 ≠ ([] : List Packet)) ∧
      ((dequeue (enqueue (mkQueueManager Policy.rr) pktB)).1 = none ↔
        resCount (enqueue (mkQueueManager Policy.rr) pktB) = 0)) :=
  ⟨Reach.enq pktB Reach.init,
    rr_flow_queues_nonempty _ (Reach.enq pktB Reach.init)⟩

/-! ### Malformed input aborts the whole run -/

lemma parseFields_none_of_malformed {l : String} (h : malformedLine l) :
    parseFields l = none := by
  obtain ⟨-, h2⟩ := h
  rw [parseFields]
  rcases h2 with hlen | ⟨a, f, p, sz, pl, heq, hbad⟩
  · rcases hxs : pySplitMax4 l.trim with _ | ⟨a, _ | ⟨f, _ | ⟨p, _ | ⟨sz, _ | ⟨pl, _ | ⟨x, tl⟩⟩⟩⟩⟩⟩
    · rfl
    · rfl
    · rfl
    · rfl
    · rfl
    · rw [hxs] at hlen
      simp at hlen
    · rfl
  · rw [heq]
    rcases hA : pyFloat? a with _ | av <;> rcases hF : pyInt? f with _ | fv <;>
      rcases hP : pyInt? p with _ | pv <;> rcases hS : pyInt? sz with _ | sv <;>
      simp_all

lemma parseInput_abort {bad : String} (hbad : malformedLine bad) :
    ∀ pre : List String,
      (∀ l ∈ pre, lineSkipped l = true ∨ (parseFields l).isSome = true) →
      ∀ rest : List String, parseInput (pre ++ bad :: rest) = none := by
  intro pre
  induction pre with
  | nil =>
    intro _ rest
    rw [List.nil_append, parseInput]
    rw [if_neg (by simp [hbad.1])]
    rw [parseFields_none_of_malformed hbad]
  | cons l pre' ih =>
    intro hpre rest
    rw [List.cons_append, parseInput]
    by_cases hsk : lineSkipped l = true
    · rw [if_pos hsk]
      exact ih (fun x hx => hpre x (List.mem_cons_of_mem _ hx)) rest
    · rw [if_neg hsk]
      rcases hpre l (List.mem_cons_self _ _) with hskip | hsome
      · exact absurd hskip hsk
      · obtain ⟨q, hq⟩ := Option.isSome_iff_exists.mp hsome
        rw [hq]
        rw [ih (fun x hx => hpre x (List.mem_cons_of_mem _ hx)) rest]
        rfl

/-- C8: the run fails hard on the first malformed line: for any prefix of
lines that are each either skipped (blank or starting with a hash) or
well-formed, a following line with fewer than five whitespace-separated
fields or a non-numeric numeric field makes the whole program abort with
no simulation output (the uncaught `ValueError` of the parsing loop),
regardless of what follows it. -/
theorem malformed_input_aborts (pre rest : List String) (bad : String)
    (pol : Policy) (r : ℚ)
    (hpre : ∀ l ∈ pre, lineSkipped l = true ∨ (parseFields l).isSome = true)
    (hbad : malformedLine bad) :
    mainRun (pre ++ bad :: rest) pol r = none := by
  rw [mainRun, parseInput_abort hbad pre hpre rest]
  rfl

theorem malformed_input_aborts_witness :
    (∀ l ∈ ["# header", "0.0 1 2 3 X"],
        lineSkipped l = true ∨ (parseFields l).isSome = true) ∧
    malformedLine "oops 1 2 3 X" ∧
    mainRun (["# header", "0.0 1 2 3 X"] ++ "oops 1 2 3 X" :: ["1.0 2 1 4 Y"])
        Policy.fcfs 10 = none :=
  ⟨by with_unfolding_all decide,
    ⟨by with_unfolding_all decide,
      Or.inr ⟨"oops", "1", "2", "3", "X", by with_unfolding_all rfl,
        Or.inl (by with_unfolding_all rfl)⟩⟩,
    malformed_input_aborts ["# header", "0.0 1 2 3 X"] ["1.0 2 1 4 Y"]
      "oops 1 2 3 X" Policy.fcfs 10 (by with_unfolding_all decide)
      ⟨by with_unfolding_all decide,
        Or.inr ⟨"oops", "1", "2", "3", "X", by with_unfolding_all rfl,
          Or.inl (by with_unfolding_all rfl)⟩⟩⟩
